import Mathlib

/-!
Verification of the Boston construction tracker (`tracker.py`).

The Python source is shallowly embedded: strings are `String`/`List Char`,
Python floats are modelled as `PyFloat` (exact rationals plus the special
values `inf`, `-inf`, `nan`; no rounding of finite literals), Python's
`None`-or-absent dictionary values are `Option`, raising code returns
`Except`.  Dictionaries that preserve insertion order are association
lists.  Every definition follows the corresponding source function.
-/

set_option maxRecDepth 10000

/-! ## Character classes (Python `\s`, `\w`, `str.upper`, `str.lower`) -/

/-- Python whitespace as matched by `\s`, `str.strip()` (ASCII part). -/
def isPySpace (c : Char) : Bool :=
  c = ' ' || c = '\t' || c = '\n' || c = '\x0d' || c = '\x0b' || c = '\x0c'

/-- Python regex word character `\w` (ASCII part): letters, digits, underscore. -/
def isWordChar (c : Char) : Bool :=
  ('A' ≤ c && c ≤ 'Z') || ('a' ≤ c && c ≤ 'z') || ('0' ≤ c && c ≤ '9') || c = '_'

/-- ASCII uppercase letter. -/
def isUpperAlpha (c : Char) : Bool := 'A' ≤ c && c ≤ 'Z'

/-- Python `str.upper` on a character (ASCII part). -/
def pyUpperChar (c : Char) : Char :=
  if 'a' ≤ c && c ≤ 'z' then Char.ofNat (c.toNat - 32) else c

/-- Python `str.lower` on a character (ASCII part). -/
def pyLowerChar (c : Char) : Char :=
  if 'A' ≤ c && c ≤ 'Z' then Char.ofNat (c.toNat + 32) else c

/-- Python `str.strip()` on a character list. -/
def pyStrip (cs : List Char) : List Char :=
  ((cs.dropWhile isPySpace).reverse.dropWhile isPySpace).reverse

/-- Python `str.strip()` on a string. -/
def pyStripStr (s : String) : String := String.mk (pyStrip s.toList)

/-- Python `str.lower()` on a string. -/
def pyLowerStr (s : String) : String := String.mk (s.toList.map pyLowerChar)

/-- Drop the given pattern from the front of a list, if it is there. -/
def dropPref : List Char → List Char → Option (List Char)
  | [], cs => some cs
  | _, [] => none
  | p :: ps, c :: cs => if p = c then dropPref ps cs else none

/-- Substring test (Python `needle in haystack`). -/
def containsSub (needle : List Char) : List Char → Bool
  | [] => (dropPref needle []).isSome
  | c :: cs => (dropPref needle (c :: cs)).isSome || containsSub needle cs

/-- Python string `<` (lexicographic on code points). -/
def pyStrLtChars : List Char → List Char → Bool
  | [], [] => false
  | [], _ :: _ => true
  | _ :: _, [] => false
  | a :: as', b :: bs' => if a = b then pyStrLtChars as' bs' else decide (a < b)

/-- Python string `>` comparison. -/
def pyStrGt (a b : String) : Bool := pyStrLtChars b.toList a.toList

/-- Python string `>=` comparison. -/
def pyStrGe (a b : String) : Bool := !(pyStrLtChars a.toList b.toList)

/-! ## Python `float()` and the numeric field parsers -/

/-- A Python float value: a finite value (modelled as an exact rational;
rounding of finite literals is not modelled), an infinity, or a NaN. -/
inductive PyFloat where
  | finite (q : Rat)
  | inf
  | negInf
  | nan
  deriving DecidableEq, Repr

/-- Python `>=` on floats (any comparison with NaN is false). -/
def pyGe : PyFloat → PyFloat → Bool
  | .finite a, .finite b => decide (b ≤ a)
  | .finite _, .inf => false
  | .finite _, .negInf => true
  | .finite _, .nan => false
  | .inf, .nan => false
  | .inf, _ => true
  | .negInf, .negInf => true
  | .negInf, _ => false
  | .nan, _ => false

/-- Python `<` on floats (any comparison with NaN is false). -/
def pyLt : PyFloat → PyFloat → Bool
  | .finite a, .finite b => decide (a < b)
  | .finite _, .inf => true
  | .finite _, .negInf => false
  | .finite _, .nan => false
  | .inf, _ => false
  | .negInf, .nan => false
  | .negInf, .negInf => false
  | .negInf, _ => true
  | .nan, _ => false

/-- Python `>` on floats: `a > b` iff `b < a`. -/
def pyGt (a b : PyFloat) : Bool := pyLt b a

def isDigit (c : Char) : Bool := '0' ≤ c && c ≤ '9'

def isDigitOrUnderscore (c : Char) : Bool := isDigit c || c = '_'

/-- Validity of a Python numeric digit group: nonempty, starts and ends with a
digit, and underscores appear only singly between digits. -/
def validDigitGroup : List Char → Bool
  | [] => false
  | [c] => isDigit c
  | c :: c2 :: cs =>
    isDigit c && (if c2 = '_' then (match cs with
                    | [] => false
                    | _ => validDigitGroup cs)
                  else validDigitGroup (c2 :: cs))

/-- Numeric value of a digit group, ignoring underscores. -/
def digitGroupVal (cs : List Char) : Nat :=
  cs.foldl (fun acc c => if c = '_' then acc else acc * 10 + (c.toNat - 48)) 0

/-- Number of digits in a digit group (underscores not counted). -/
def digitGroupLen (cs : List Char) : Nat := (cs.filter isDigit).length

/-- Parse a digit group (with underscores) from the front of the input,
returning its value, its digit count, and the rest; fails when the group is
empty or ill-formed. -/
def parseDigitGroup? (cs : List Char) : Option (Nat × Nat × List Char) :=
  match cs.span isDigitOrUnderscore with
  | (g, r) =>
    if validDigitGroup g then some (digitGroupVal g, digitGroupLen g, r) else none

/-- Parse the mantissa of a Python float literal
(`digitpart ["." [digitpart]] | "." digitpart`), returning its exact value
and the rest of the input. -/
def parseMantissa? (cs : List Char) : Option (Rat × List Char) :=
  match cs.span isDigitOrUnderscore with
  | (ip, r1) =>
    if ip.isEmpty then
      match r1 with
      | '.' :: r2 =>
        match parseDigitGroup? r2 with
        | some (v, l, r3) => some ((v : Rat) / (10 : Rat) ^ l, r3)
        | none => none
      | _ => none
    else if validDigitGroup ip then
      match r1 with
      | '.' :: r2 =>
        match r2.span isDigitOrUnderscore with
        | (fp, r3) =>
          if fp.isEmpty then some ((digitGroupVal ip : Nat), r3)
          else if validDigitGroup fp then
            some (((digitGroupVal ip : Nat) : Rat)
              + ((digitGroupVal fp : Nat) : Rat) / ((10 : Rat) ^ digitGroupLen fp), r3)
          else none
      | _ => some ((digitGroupVal ip : Nat), r1)
    else none

/-- The optional sign of an exponent part. -/
def expSign : List Char → Int × List Char
  | '+' :: r => (1, r)
  | '-' :: r => (-1, r)
  | r4 => (1, r4)

/-- Parse the optional exponent suffix, requiring the rest of the input to
be consumed, and apply it to the mantissa value. -/
def parseExponent? (mag : Rat) : List Char → Option Rat
  | [] => some mag
  | e :: r4 =>
    if e = 'e' || e = 'E' then
      match parseDigitGroup? (expSign r4).2 with
      | some (v, _, r6) =>
        if r6.isEmpty then some (mag * (10 : Rat) ^ ((expSign r4).1 * (v : Int)))
        else none
      | none => none
    else none

/-- The unsigned numeric part of a Python float literal, requiring the whole
input to be consumed.  Returns the exact value. -/
def pyFloatMagnitude? (cs : List Char) : Option Rat :=
  match parseMantissa? cs with
  | some (mag, rest) => parseExponent? mag rest
  | none => none

/-- The body of `float(s)` after the sign: `inf`/`infinity`/`nan`
(case-insensitive) or a numeric literal; `neg` records a leading minus. -/
def pyFloatSigned (neg : Bool) (cs1 : List Char) : Option PyFloat :=
  let low := cs1.map pyLowerChar
  if low = [ 'i', 'n', 'f' ] || low = [ 'i', 'n', 'f', 'i', 'n', 'i', 't', 'y' ] then
    some (if neg then .negInf else .inf)
  else if low = [ 'n', 'a', 'n' ] then some .nan
  else
    match pyFloatMagnitude? cs1 with
    | some mag => some (.finite (if neg then -mag else mag))
    | none => none

/-- Python `float(s)` on a string: strips whitespace, reads an optional
sign, then either `inf`/`infinity`/`nan` (case-insensitive) or a numeric
literal.  `none` models a raised `ValueError`. -/
def pyFloatChars? (cs0 : List Char) : Option PyFloat :=
  match pyStrip cs0 with
  | '+' :: r => pyFloatSigned false r
  | '-' :: r => pyFloatSigned true r
  | cs => pyFloatSigned false cs

/-- Truncation toward zero, as Python `int(float)` does for finite floats. -/
def truncRat (q : Rat) : Int := if q < 0 then Rat.ceil q else Rat.floor q

/-- Python exceptions that the embedded code can raise. -/
inductive PyErr where
  | overflowError
  deriving DecidableEq, Repr

/-- Source `parse_valuation`: strip, remove `$`, `,` and spaces, then
`float(...)`; any `ValueError` is caught and yields `0.0`.  The input is
`none` for an absent or `None` value. -/
def parse_valuation (val : Option String) : PyFloat :=
  match val with
  | none => .finite 0
  | some v =>
    if v = "" then .finite 0
    else
      let s := (pyStrip v.toList).filter (fun c => !(c = '$' || c = ',' || c = ' '))
      match pyFloatChars? s with
      | some f => f
      | none => .finite 0

/-- Source `parse_sqft`: strip, remove `,` and spaces, then `int(float(...))`.
`ValueError` (including `int(nan)`) is caught and yields `0`; `int` of an
infinite float raises an uncaught `OverflowError`. -/
def parse_sqft (val : Option String) : Except PyErr Int :=
  match val with
  | none => .ok 0
  | some v =>
    if v = "" then .ok 0
    else
      let s := (pyStrip v.toList).filter (fun c => !(c = ',' || c = ' '))
      match pyFloatChars? s with
      | none => .ok 0
      | some (.finite q) => .ok (truncRat q)
      | some .nan => .ok 0
      | some .inf => .error .overflowError
      | some .negInf => .error .overflowError

/-! ## Keyword matching and the relevance scorer -/

/-- Source `match_keywords`: keywords whose lowercase form occurs in the
lowercased text, in keyword-list order. -/
def match_keywords (text : String) (keywords : List String) : List String :=
  if text = "" then []
  else
    let lower := text.toList.map pyLowerChar
    keywords.filter (fun kw => containsSub (kw.toList.map pyLowerChar) lower)

/-- Source `score_hvac_relevance`. -/
def score_hvac_relevance (matched_direct matched_type : List String)
    (valuation auto_flag_val : PyFloat) : String :=
  if pyGe valuation auto_flag_val then "high"
  else if !matched_direct.isEmpty then "high"
  else if !matched_type.isEmpty && pyGe valuation (.finite 5000000) then "high"
  else if !matched_type.isEmpty then "medium"
  else "low"

/-! ## Address normalizer (`normalize_address`)

The three `re.sub` calls are embedded as deterministic scanners.  The
unit-suffix pattern `\s*(UNIT|SUITE|STE|APT|#)\s*\S*` always consumes a
maximal whitespace run before the token (the alternatives all start with a
non-space character, so backtracking into the leading `\s*` cannot help), and
greedily consumes `\s*\S*` after it.  The `\bWORD\b` patterns are scanned
with a flag recording whether the previous character is a word character. -/

/-- Match the alternation `UNIT|SUITE|STE|APT|#` at the head of the list, in
regex alternation order, returning the remainder. -/
def tryUnitTok (cs : List Char) : Option (List Char) :=
  dropPref [ 'U', 'N', 'I', 'T' ] cs <|>
  dropPref [ 'S', 'U', 'I', 'T', 'E' ] cs <|>
  dropPref [ 'S', 'T', 'E' ] cs <|>
  dropPref [ 'A', 'P', 'T' ] cs <|>
  dropPref [ '#' ] cs

/-- Match `\s*(UNIT|SUITE|STE|APT|#)\s*\S*` at the current position, returning
the remainder of the string after the match. -/
def unitMatchAt (cs : List Char) : Option (List Char) :=
  match tryUnitTok (cs.dropWhile isPySpace) with
  | none => none
  | some r2 => some ((r2.dropWhile isPySpace).dropWhile (fun c => !isPySpace c))

/-- Leftmost, non-overlapping removal of all matches of the unit-suffix
pattern (`re.sub(pattern, '', s)`), with fuel for termination. -/
def subUnitGo : Nat → List Char → List Char
  | 0, cs => cs
  | _ + 1, [] => []
  | fuel + 1, c :: rest =>
    match unitMatchAt (c :: rest) with
    | some rem => subUnitGo fuel rem
    | none => c :: subUnitGo fuel rest

/-- `re.sub(r'\s*(UNIT|SUITE|STE|APT|#)\s*\S*', '', s)`. -/
def subUnit (cs : List Char) : List Char := subUnitGo cs.length cs

/-- Attempt of a `\bw\b` match at the current position: `prev` says whether
the character before this position is a word character.  Returns the
remainder after `w` when the boundaries are satisfied.  (All replaced words
consist of word characters, so the leading boundary is `prev = false`.) -/
def wordBMatch (w : List Char) (prev : Bool) (cs : List Char) : Option (List Char) :=
  if prev then none
  else
    match dropPref w cs with
    | none => none
    | some rem =>
      match rem with
      | [] => some rem
      | d :: _ => if isWordChar d then none else some rem

/-- Scanner for `re.sub(r'\bw\b', r, s)`, with fuel for termination. -/
def substWordGo (w r : List Char) : Nat → Bool → List Char → List Char
  | 0, _, cs => cs
  | _ + 1, _, [] => []
  | fuel + 1, prev, c :: rest =>
    match wordBMatch w prev (c :: rest) with
    | some rem => r ++ substWordGo w r fuel true rem
    | none => c :: substWordGo w r fuel (isWordChar c) rest

/-- `re.sub(r'\bw\b', r, s)` for a word `w` made of word characters. -/
def substWord (w r : List Char) (cs : List Char) : List Char :=
  substWordGo w r cs.length false cs

/-- Whether the string has any `\bw\b` occurrence (same scan as `substWordGo`). -/
def hasWordOcc (w : List Char) : Bool → List Char → Bool
  | _, [] => false
  | prev, c :: rest => (wordBMatch w prev (c :: rest)).isSome || hasWordOcc w (isWordChar c) rest

/-- The abbreviation table of `normalize_address`, in source order. -/
def abbrevPairs : List (List Char × List Char) :=
  [ (String.toList "STREET", String.toList "ST"),
    (String.toList "AVENUE", String.toList "AVE"),
    (String.toList "ROAD", String.toList "RD"),
    (String.toList "DRIVE", String.toList "DR"),
    (String.toList "BOULEVARD", String.toList "BLVD"),
    (String.toList "LANE", String.toList "LN"),
    (String.toList "PLACE", String.toList "PL"),
    (String.toList "COURT", String.toList "CT"),
    (String.toList "CIRCLE", String.toList "CIR"),
    (String.toList "HIGHWAY", String.toList "HWY"),
    (String.toList "PARKWAY", String.toList "PKWY"),
    (String.toList "TERRACE", String.toList "TER"),
    (String.toList "SOUTH", String.toList "S"),
    (String.toList "NORTH", String.toList "N"),
    (String.toList "EAST", String.toList "E"),
    (String.toList "WEST", String.toList "W") ]

/-- Apply the sixteen abbreviation substitutions in order. -/
def applyAbbrevs (cs : List Char) : List Char :=
  abbrevPairs.foldl (fun s p => substWord p.1 p.2 s) cs

/-- The punctuation class `[.,\-#/]`. -/
def isPunctTok (c : Char) : Bool :=
  c = '.' || c = ',' || c = '-' || c = '#' || c = '/'

/-- `re.sub(r'[.,\-#/]', ' ', s)`. -/
def depunct (cs : List Char) : List Char :=
  cs.map (fun c => if isPunctTok c then ' ' else c)

/-- `re.sub(r'\s+', ' ', s)`: collapse whitespace runs to single spaces. -/
def collapseGo : Bool → List Char → List Char
  | _, [] => []
  | prevSpace, c :: rest =>
    if isPySpace c then
      if prevSpace then collapseGo true rest else ' ' :: collapseGo true rest
    else c :: collapseGo false rest

/-- Whitespace collapsing, starting outside a whitespace run. -/
def collapseWs (cs : List Char) : List Char := collapseGo false cs

/-- The five alternatives of the unit-suffix pattern, in alternation order. -/
def unitToks : List (List Char) :=
  [ [ 'U', 'N', 'I', 'T' ], [ 'S', 'U', 'I', 'T', 'E' ], [ 'S', 'T', 'E' ],
    [ 'A', 'P', 'T' ], [ '#' ] ]

/-- Invariant of `collapseWs` output: every whitespace character is a plain
space and no two spaces are adjacent (the flag records whether the previous
character was a space). -/
def goodSpaces : Bool → List Char → Bool
  | _, [] => true
  | prevSp, c :: rest =>
    if isPySpace c then !prevSp && (c = ' ') && goodSpaces true rest
    else goodSpaces false rest

/-- The body of `normalize_address` after the emptiness test. -/
def normalizeChars (cs : List Char) : List Char :=
  let s0 := pyStrip (cs.map pyUpperChar)
  let s1 := subUnit s0
  let s2 := applyAbbrevs s1
  let s3 := depunct s2
  pyStrip (collapseWs s3)

/-- Source `normalize_address`. -/
def normalize_address (addr : String) : String :=
  if addr = "" then "" else String.mk (normalizeChars addr.toList)

/-! ## Data model

Raw records are embedded as structures of `Option` fields (`none` models an
absent key or a JSON `null`).  Where the source reads
`r.get("UPPER", r.get("lower", d))`, the two spellings of the key are
modelled as a single field. -/

/-- Python `x or default` for strings fetched with a `""`-style default. -/
def orDefault (o : Option String) (d : String) : String :=
  let v := o.getD ""
  if v = "" then d else v

/-- Python `" ".join(str(f) for f in fields if f)`. -/
def joinNonEmpty (fields : List String) : String :=
  String.intercalate " " (fields.filter (fun f => f ≠ ""))

/-- Python `str(r.get(k) or "").strip()`. -/
def getStrip (o : Option String) : String := pyStripStr (o.getD "")

/-- Python `str.upper()` on a string. -/
def pyUpperStr (s : String) : String := String.mk (s.toList.map pyUpperChar)

/-- The keyword/threshold configuration (`config.json`). -/
structure Config where
  min_valuation : PyFloat
  auto_flag_valuation : PyFloat
  direct_hvac_keywords : List String
  project_type_keywords : List String

/-- The `brjp_targets` configuration entry. -/
structure BrjpTargets where
  resident_pct : Rat
  poc_pct : Rat
  women_pct : Rat
  deriving DecidableEq, Repr

/-- An aggregated Compliance Project dict built by `process_brjp_projects`.
The derived fields are set by the second phase; before that they hold the
listed defaults (the Python dict simply lacks those keys then). -/
structure CProj where
  name : String
  address : String
  total_hours : Rat
  resident_hours : Rat
  poc_hours : Rat
  women_hours : Rat
  agencies : List String
  norm_address : String
  last_period : String
  neighborhood : String
  developer : String
  general_contractor : String
  resident_pct : Rat := 0
  poc_pct : Rat := 0
  women_pct : Rat := 0
  compliance_status : String := ""
  is_oed : Bool := false
  is_bpda : Bool := false
  project_status : String := ""
  deriving DecidableEq, Repr

/-- A normalized output Project dict (union of the Article 80 and permit
shapes; fields the producing processor does not set keep the defaults,
mirroring keys the Python dict simply does not have). -/
structure Project where
  id : String := ""
  name : String := ""
  address : String := ""
  neighborhood : String := ""
  status : String := ""
  record_type : String := ""
  sqft : Int := 0
  estimated_valuation : PyFloat := .finite 0
  description : String := ""
  proposed_use : String := ""
  board_approval_date : String := ""
  last_filed_date : String := ""
  website_url : String := ""
  primary_date : String := ""
  keywords_matched : List String := []
  hvac_relevance : String := ""
  source : String := ""
  permit_type : String := ""
  permit_number : String := ""
  applicant : String := ""
  worktype : String := ""
  permit_type_descr : String := ""
  expiration_date : String := ""
  issued_date : String := ""
  valuation : PyFloat := .finite 0
  is_new : Bool := false
  brjp : Option CProj := none
  deriving DecidableEq, Repr

/-- A raw Article 80 record (the fields `process_article80` reads). -/
structure A80Record where
  idField : Option String := none
  project_id : Option String := none
  project__project_name : Option String := none
  description : Option String := none
  project_uses : Option String := none
  neighborhood : Option String := none
  project_status : Option String := none
  project__record_type : Option String := none
  gross_square_footage : Option String := none
  total_development_cost : Option String := none
  project_street_number : Option String := none
  project_street_name : Option String := none
  project_street_suffix : Option String := none
  website_url : Option String := none
  last_filed_date : Option String := none
  last_board_approved_date : Option String := none

/-- One iteration of the `process_article80` loop: `none` when the record is
filtered out, `Except.error` when `parse_sqft` raises. -/
def processA80Rec (config : Config) (r : A80Record) : Except PyErr (Option Project) := do
  let search_text := joinNonEmpty
    [ r.project__project_name.getD "", r.description.getD "", r.project_uses.getD "",
      r.neighborhood.getD "", r.project_status.getD "" ]
  let sqft ← parse_sqft (some (r.gross_square_footage.getD ""))
  let dev_cost := parse_valuation (some (r.total_development_cost.getD ""))
  let estimated_val : PyFloat :=
    if pyGt dev_cost (.finite 0) then dev_cost
    else if sqft > 0 then .finite ((sqft : Rat) * 300) else .finite 0
  let matched_direct := match_keywords search_text config.direct_hvac_keywords
  let matched_type := match_keywords search_text config.project_type_keywords
  let all_matched := matched_direct ++ matched_type
  let record_type := pyLowerStr (r.project__record_type.getD "")
  let is_large := containsSub (String.toList "large") record_type.toList
  let has_keywords := all_matched.length > 0
  let is_big_sqft := sqft ≥ 50000
  if !(has_keywords || is_large || is_big_sqft) then
    return none
  let relevance := score_hvac_relevance matched_direct matched_type estimated_val
    config.auto_flag_valuation
  let address := joinNonEmpty
    [ r.project_street_number.getD "", r.project_street_name.getD "",
      r.project_street_suffix.getD "" ]
  let website_url := r.website_url.getD ""
  let last_filed := r.last_filed_date.getD ""
  let board_approved := r.last_board_approved_date.getD ""
  let primary_date := if board_approved ≠ "" then board_approved else last_filed
  return some
    { id := match r.idField with
            | some v => v
            | none => r.project_id.getD ""
      name := orDefault r.project__project_name "Unknown"
      address := if address ≠ "" then address else "N/A"
      neighborhood := orDefault r.neighborhood "N/A"
      status := orDefault r.project_status "N/A"
      record_type := orDefault r.project__record_type "N/A"
      sqft := sqft
      estimated_valuation := estimated_val
      description := orDefault r.description "N/A"
      proposed_use := orDefault r.project_uses "N/A"
      board_approval_date := if board_approved ≠ "" then board_approved else "N/A"
      last_filed_date := if last_filed ≠ "" then last_filed else "N/A"
      website_url := website_url
      primary_date := primary_date
      keywords_matched := all_matched
      hvac_relevance := relevance
      source := "article80" }

/-- Source `process_article80`. -/
def process_article80 (records : List A80Record) (config : Config) :
    Except PyErr (List Project) :=
  match records with
  | [] => .ok []
  | r :: rest => do
    let p? ← processA80Rec config r
    let ps ← process_article80 rest config
    pure (match p? with
          | some p => p :: ps
          | none => ps)

/-- A raw permit record (the fields `process_permits` reads). -/
structure PermitRecord where
  idField : Option String := none
  declared_valuation : Option String := none
  description : Option String := none
  comments : Option String := none
  permittype : Option String := none
  sq_feet : Option String := none
  permitnumber : Option String := none
  issued_date : Option String := none
  address : Option String := none
  city : Option String := none
  status : Option String := none
  applicant : Option String := none
  worktype : Option String := none
  permit_type_descr : Option String := none
  expiration_date : Option String := none

/-- One iteration of the `process_permits` loop. -/
def processPermitRec (config : Config) (r : PermitRecord) : Except PyErr (Option Project) := do
  let valuation := parse_valuation (some (r.declared_valuation.getD ""))
  if pyLt valuation config.min_valuation then
    return none
  let search_text := joinNonEmpty
    [ r.description.getD "", r.comments.getD "", r.permittype.getD "" ]
  let matched_direct := match_keywords search_text config.direct_hvac_keywords
  let matched_type := match_keywords search_text config.project_type_keywords
  let all_matched := matched_direct ++ matched_type
  if all_matched.isEmpty && pyLt valuation config.auto_flag_valuation then
    return none
  let relevance := score_hvac_relevance matched_direct matched_type valuation
    config.auto_flag_valuation
  let sqft ← parse_sqft (some (r.sq_feet.getD ""))
  let permit_number := r.permitnumber.getD ""
  let issued_date := r.issued_date.getD ""
  return some
    { id := match r.idField with
            | some v => v
            | none => permit_number
      name := orDefault r.description "Permit"
      address := r.address.getD "N/A"
      neighborhood := r.city.getD "Boston"
      status := orDefault r.status "Issued"
      permit_type := r.permittype.getD "N/A"
      permit_number := permit_number
      applicant := r.applicant.getD ""
      worktype := r.worktype.getD ""
      permit_type_descr := r.permit_type_descr.getD ""
      expiration_date := r.expiration_date.getD ""
      sqft := sqft
      valuation := valuation
      description := r.comments.getD "N/A"
      issued_date := if issued_date ≠ "" then issued_date else "N/A"
      primary_date := issued_date
      keywords_matched := all_matched
      hvac_relevance := relevance
      source := "permits" }

/-- Source `process_permits`. -/
def process_permits (records : List PermitRecord) (config : Config) :
    Except PyErr (List Project) :=
  match records with
  | [] => .ok []
  | r :: rest => do
    let p? ← processPermitRec config r
    let ps ← process_permits rest config
    pure (match p? with
          | some p => p :: ps
          | none => ps)

/-! ## Compliance aggregation (`process_brjp_projects`) -/

/-- Lookup in an insertion-ordered association list (Python dict read). -/
def alLookup {α β : Type} [DecidableEq α] (k : α) : List (α × β) → Option β
  | [] => none
  | kv :: rest => if kv.1 = k then some kv.2 else alLookup k rest

/-- In-place update of an existing key (Python dict write to a present key). -/
def alUpdate {α β : Type} [DecidableEq α] (k : α) (f : β → β) : List (α × β) → List (α × β)
  | [] => []
  | kv :: rest => if kv.1 = k then (kv.1, f kv.2) :: rest else kv :: alUpdate k f rest

/-- Write to a possibly-present key: update in place or append (Python dict
assignment). -/
def alInsert {α β : Type} [DecidableEq α] (k : α) (v : β) : List (α × β) → List (α × β)
  | [] => [ (k, v) ]
  | kv :: rest => if kv.1 = k then (k, v) :: rest else kv :: alInsert k v rest

/-- A raw per-project BRJP row as returned by the SQL query.  The numeric
aggregates are modelled directly as rationals (`float(x or 0)` in the
source), `none` modelling an absent or `null` value. -/
structure BrjpRow where
  compliance_project_name : Option String := none
  project_address : Option String := none
  agency : Option String := none
  total_hours : Option Rat := none
  resident_hours : Option Rat := none
  poc_hours : Option Rat := none
  women_hours : Option Rat := none
  last_period : Option String := none
  neighborhood : Option String := none
  developer : Option String := none
  general_contractor : Option String := none

/-- The grouping key of a raw BRJP row:
`(project_name.strip(), project_address.strip())`. -/
def brjpKeyOf (r : BrjpRow) : String × String :=
  (getStrip r.compliance_project_name, getStrip r.project_address)

/-- The merge branch of the grouping loop (`if key in projects`): the four
hour sums, the unique agency accumulation, the string-maximal reporting
period, and the keep-first-non-empty descriptive fields.  The sequential
updates of the source touch disjoint fields, so they are written as one
record update. -/
def brjpMerge (total resident poc women : Rat)
    (agency last_period neighborhood developer contractor : String) (p : CProj) : CProj :=
  { p with
    total_hours := p.total_hours + total
    resident_hours := p.resident_hours + resident
    poc_hours := p.poc_hours + poc
    women_hours := p.women_hours + women
    agencies := if agency ≠ "" ∧ ¬ agency ∈ p.agencies then p.agencies ++ [agency]
      else p.agencies
    last_period := if pyStrGt last_period p.last_period then last_period
      else p.last_period
    neighborhood := if neighborhood ≠ "" ∧ p.neighborhood = "" then neighborhood
      else p.neighborhood
    developer := if developer ≠ "" ∧ p.developer = "" then developer else p.developer
    general_contractor := if contractor ≠ "" ∧ p.general_contractor = "" then contractor
      else p.general_contractor }

/-- Merging one raw row into an existing aggregate. -/
def brjpMergeRow (p : CProj) (r : BrjpRow) : CProj :=
  brjpMerge (r.total_hours.getD 0) (r.resident_hours.getD 0) (r.poc_hours.getD 0)
    (r.women_hours.getD 0) (pyUpperStr (getStrip r.agency)) (getStrip r.last_period)
    (getStrip r.neighborhood) (getStrip r.developer) (getStrip r.general_contractor) p

/-- The fresh aggregate created for the first row of a key. -/
def brjpInitRow (r : BrjpRow) : CProj :=
  { name := getStrip r.compliance_project_name
    address := getStrip r.project_address
    total_hours := r.total_hours.getD 0
    resident_hours := r.resident_hours.getD 0
    poc_hours := r.poc_hours.getD 0
    women_hours := r.women_hours.getD 0
    agencies := if pyUpperStr (getStrip r.agency) ≠ "" then [pyUpperStr (getStrip r.agency)]
      else []
    norm_address := normalize_address (getStrip r.project_address)
    last_period := getStrip r.last_period
    neighborhood := getStrip r.neighborhood
    developer := getStrip r.developer
    general_contractor := getStrip r.general_contractor }

/-- One iteration of the grouping loop of `process_brjp_projects`. -/
def brjpStep (m : List ((String × String) × CProj)) (r : BrjpRow) :
    List ((String × String) × CProj) :=
  match alLookup (brjpKeyOf r) m with
  | some _ => alUpdate (brjpKeyOf r) (fun p => brjpMergeRow p r) m
  | none => m ++ [ (brjpKeyOf r, brjpInitRow r) ]

/-- The run time of the job (`datetime.now(timezone.utc)`); only the year and
month are read by `process_brjp_projects`. -/
structure RunTime where
  year : Int
  month : Nat

/-- Python `f"{m:02d}"` for the month values the code produces. -/
def pad2 (n : Nat) : String := if n < 10 then "0" ++ toString n else toString n

/-- The `Active` cutoff string computed by `process_brjp_projects`:
`f"{cutoff_year}-{cutoff_month:02d}-01"`. -/
def brjpCutoff (now : RunTime) : String :=
  let cutoff_year : Int := if now.month > 6 then now.year else now.year - 1
  let cutoff_month : Nat := if now.month > 6 then now.month - 6 else now.month + 6
  toString cutoff_year ++ "-" ++ pad2 cutoff_month ++ "-01"

/-- The second phase of `process_brjp_projects`: percentages, compliance
status, agency flags and project status for one aggregated project. -/
def brjpFinalize (targets : BrjpTargets) (cutoff : String) (p : CProj) : CProj :=
  let th := p.total_hours
  let rp : Rat := if th > 0 then p.resident_hours / th * 100 else 0
  let pp : Rat := if th > 0 then p.poc_hours / th * 100 else 0
  let wp : Rat := if th > 0 then p.women_hours / th * 100 else 0
  let meets_resident := rp ≥ targets.resident_pct
  let meets_poc := pp ≥ targets.poc_pct
  let meets_women := wp ≥ targets.women_pct
  let status :=
    if meets_resident ∧ meets_poc ∧ meets_women then "compliant"
    else if meets_resident ∨ meets_poc ∨ meets_women then "partial"
    else "non-compliant"
  let lp := p.last_period
  { p with
    resident_pct := rp
    poc_pct := pp
    women_pct := wp
    compliance_status := status
    is_oed := "OED" ∈ p.agencies
    is_bpda := "BPDA" ∈ p.agencies
    project_status := if lp ≠ "" ∧ pyStrGe lp cutoff then "active" else "completed" }

/-- Source `process_brjp_projects` (the run time is passed explicitly in
place of the `datetime.now(timezone.utc)` call). -/
def process_brjp_projects (project_rows : List BrjpRow) (targets : BrjpTargets)
    (now : RunTime) : List ((String × String) × CProj) :=
  let projects := project_rows.foldl brjpStep []
  let cutoff := brjpCutoff now
  projects.map (fun kp => (kp.1, brjpFinalize targets cutoff kp.2))

/-! ## Cross-source matcher and new-project marking -/

/-- Source `match_brjp_to_projects`: returns the updated project list
(in the source the dicts are updated in place) and the match count. -/
def match_brjp_to_projects (tracker_projects : List Project)
    (brjp_projects : List ((String × String) × CProj)) : List Project × Nat :=
  let brjp_by_addr := brjp_projects.foldl
    (fun m kp => if kp.2.norm_address ≠ "" then alInsert kp.2.norm_address kp.2 m else m) []
  let updated := tracker_projects.map (fun p =>
    let addr := normalize_address p.address
    match (if addr ≠ "" then alLookup addr brjp_by_addr else none) with
    | some bp => { p with brjp := some bp }
    | none => { p with brjp := none })
  (updated, updated.countP (fun p => p.brjp.isSome))

/-- Source `identify_new_projects` (`seen_ids` is a set; membership only). -/
def identify_new_projects (projects : List Project) (seen_ids : List String) :
    List Project :=
  projects.map (fun p => { p with is_new := ¬ p.id ∈ seen_ids })

/-! ## Specification-side definitions

These definitions follow the wording of the specification; the theorems
below compare them with the embedded source functions. -/

/-- The five-rule relevance decision table of spec §4.3 (first match wins),
over the two keyword-match booleans. -/
def relevanceTable (direct_match type_match : Bool) (valuation threshold : PyFloat) : String :=
  if pyGe valuation threshold then "high"
  else if direct_match then "high"
  else if type_match && pyGe valuation (.finite 5000000) then "high"
  else if type_match then "medium"
  else "low"

/-- Spec §4.8 lookup semantics: the Compliance Project of the last entry
whose (non-empty) normalized address equals `k` — last write wins. -/
def specLastWriteLookup (k : String) : List ((String × String) × CProj) → Option CProj
  | [] => none
  | kp :: rest =>
    match specLastWriteLookup k rest with
    | some v => some v
    | none => if kp.2.norm_address = k ∧ k ≠ "" then some kp.2 else none

/-- First non-empty string of a list, or `""` if there is none. -/
def firstNonEmpty (l : List String) : String :=
  ((l.filter (fun s => s ≠ "")).head?).getD ""

/-- Maximum of a list of strings under Python string comparison, starting
from `a` (earliest maximum wins ties). -/
def strMaxFrom (a : String) (l : List String) : String :=
  l.foldl (fun acc x => if pyStrGt x acc then x else acc) a

/-- Unique-preserving accumulation of non-empty agency codes, in order of
first appearance (spec §4.7). -/
def dedupAgencies (acc : List String) : List String → List String
  | [] => acc
  | a :: rest =>
    if a ≠ "" ∧ ¬ a ∈ acc then dedupAgencies (acc ++ [a]) rest
    else dedupAgencies acc rest

/-- Spec §4.7 aggregate record for one key over its group of rows: sums,
first-appearance unique agency list, string-maximal reporting period, and
first non-empty descriptive fields.  (The descriptive fields record what
the code actually keeps: the earliest non-empty value.) -/
def specPayload (key : String × String) (group : List BrjpRow) : CProj :=
  { name := key.1
    address := key.2
    total_hours := (group.map (fun r => r.total_hours.getD 0)).sum
    resident_hours := (group.map (fun r => r.resident_hours.getD 0)).sum
    poc_hours := (group.map (fun r => r.poc_hours.getD 0)).sum
    women_hours := (group.map (fun r => r.women_hours.getD 0)).sum
    agencies := dedupAgencies [] (group.map (fun r => pyUpperStr (getStrip r.agency)))
    norm_address := normalize_address key.2
    last_period := strMaxFrom "" (group.map (fun r => getStrip r.last_period))
    neighborhood := firstNonEmpty (group.map (fun r => getStrip r.neighborhood))
    developer := firstNonEmpty (group.map (fun r => getStrip r.developer))
    general_contractor :=
      firstNonEmpty (group.map (fun r => getStrip r.general_contractor)) }

/-- Spec §4.7 aggregate for one key over a row list: `none` when no row has
that key, otherwise the `specPayload` of the key's rows. -/
def specAgg (key : String × String) (rows : List BrjpRow) : Option CProj :=
  let group := rows.filter (fun r => brjpKeyOf r = key)
  if group.isEmpty then none else some (specPayload key group)

/-- The string remaining after `parse_sqft`'s own stripping and the final
whitespace strip done inside `float()`; its head carries the sign. -/
def sqftSignificand (s : String) : List Char :=
  pyStrip ((pyStrip s.toList).filter (fun c => !(c = ',' || c = ' ')))

/-! ## Concrete inputs used by witnesses and counterexamples -/

/-- A configuration with no keywords and the documented thresholds. -/
def cfg0 : Config :=
  { min_valuation := .finite 1000000
    auto_flag_valuation := .finite 10000000
    direct_hvac_keywords := []
    project_type_keywords := [] }

/-- An Article 80 record whose square footage field is negative and whose
record type makes it pass the inclusion filter. -/
def a80Neg : A80Record :=
  { project__record_type := some "Large Project"
    gross_square_footage := some "-100" }

/-- The configured compliance targets used in examples (51/40/12). -/
def targets0 : BrjpTargets := { resident_pct := 51, poc_pct := 40, women_pct := 12 }

/-- A fixed run time for examples. -/
def now0 : RunTime := { year := 2026, month := 10 }

/-- A single BRJP row used by witnesses. -/
def brjpRow0 : BrjpRow :=
  { compliance_project_name := some "Parcel P3"
    project_address := some "#"
    agency := some "oed"
    total_hours := some 10
    resident_hours := some 6
    poc_hours := some 5
    women_hours := some 2
    last_period := some "2026-09-30" }

/-- Two BRJP rows with the same key whose developer fields differ. -/
def brjpRowA : BrjpRow :=
  { compliance_project_name := some "P"
    project_address := some "1 A St"
    total_hours := some 1
    last_period := some "2024-01-31"
    developer := some "Alpha" }

/-- The later row of the pair: a more recent period and developer `Beta`. -/
def brjpRowB : BrjpRow :=
  { compliance_project_name := some "P"
    project_address := some "1 A St"
    total_hours := some 2
    last_period := some "2025-06-30"
    developer := some "Beta" }

/-- A tracker project whose address normalizes to the empty string. -/
def projHash : Project := { address := "#" }

/-- A compliance project whose address also normalizes to the empty string. -/
def cprojHash : CProj :=
  { name := "X"
    address := "#"
    total_hours := 0
    resident_hours := 0
    poc_hours := 0
    women_hours := 0
    agencies := []
    norm_address := normalize_address "#"
    last_period := ""
    neighborhood := ""
    developer := ""
    general_contractor := "" }

/-- The project produced by `process_article80` from `a80Neg` with `cfg0`:
its `sqft` field is the negative number `-100`. -/
def pNeg : Project :=
  { id := ""
    name := "Unknown"
    address := "N/A"
    neighborhood := "N/A"
    status := "N/A"
    record_type := "Large Project"
    sqft := -100
    estimated_valuation := .finite 0
    description := "N/A"
    proposed_use := "N/A"
    board_approval_date := "N/A"
    last_filed_date := "N/A"
    website_url := ""
    primary_date := ""
    keywords_matched := []
    hvac_relevance := "low"
    source := "article80" }

/-- An Article 80 record with a 60,000 square-foot project of the
`Large Project` record type (spec §8 scenario). -/
def a80Pos : A80Record :=
  { project__record_type := some "Large Project"
    gross_square_footage := some "60,000" }

/-- The project produced by `process_article80` from `a80Pos` with `cfg0`:
60,000 square feet and an estimated valuation of 60000 times 300. -/
def pPos : Project :=
  { id := ""
    name := "Unknown"
    address := "N/A"
    neighborhood := "N/A"
    status := "N/A"
    record_type := "Large Project"
    sqft := 60000
    estimated_valuation := .finite 18000000
    description := "N/A"
    proposed_use := "N/A"
    board_approval_date := "N/A"
    last_filed_date := "N/A"
    website_url := ""
    primary_date := ""
    keywords_matched := []
    hvac_relevance := "high"
    source := "article80" }

/-- The aggregated compliance project obtained from `[brjpRow0]` with
`targets0` and `now0` (hours 10/6/5/2 give 60/50/20 percent). -/
def cProj0 : CProj :=
  { name := "Parcel P3"
    address := "#"
    total_hours := 10
    resident_hours := 6
    poc_hours := 5
    women_hours := 2
    agencies := ["OED"]
    norm_address := ""
    last_period := "2026-09-30"
    neighborhood := ""
    developer := ""
    general_contractor := ""
    resident_pct := 60
    poc_pct := 50
    women_pct := 20
    compliance_status := "compliant"
    is_oed := true
    is_bpda := false
    project_status := "active" }

/-- The aggregate of `[brjpRowA, brjpRowB]` under their shared key
`("P", "1 A St")`: hours sum to 3, the most recent period wins, and the
earliest non-empty developer (`Alpha`) is kept. -/
def cAB : CProj :=
  { name := "P"
    address := "1 A St"
    total_hours := 3
    resident_hours := 0
    poc_hours := 0
    women_hours := 0
    agencies := []
    norm_address := "1 A ST"
    last_period := "2025-06-30"
    neighborhood := ""
    developer := "Alpha"
    general_contractor := "" }

/-- Iterative view of the grouping loop restricted to one key: the current
aggregate for the key after the matching rows seen so far. -/
def specFold (key : String × String) : Option CProj → List BrjpRow → Option CProj
  | cur, [] => cur
  | cur, r :: rest =>
    if brjpKeyOf r = key then
      match cur with
      | some p => specFold key (some (brjpMergeRow p r)) rest
      | none => specFold key (some (brjpInitRow r)) rest
    else specFold key cur rest

/-! ## Helper lemmas -/

theorem alLookup_map {α β : Type} [DecidableEq α] (k : α) (f : β → β)
    (m : List (α × β)) :
    alLookup k (m.map (fun kp => (kp.1, f kp.2))) = (alLookup k m).map f := by
  induction m with
  | nil => rfl
  | cons kv rest ih =>
    simp only [List.map_cons, alLookup]
    by_cases hk : kv.1 = k
    · simp [hk]
    · simp [hk, ih]

theorem lookup_process_brjp (rows : List BrjpRow) (targets : BrjpTargets)
    (now : RunTime) (key : String × String) :
    alLookup key (process_brjp_projects rows targets now) =
      (alLookup key (rows.foldl brjpStep [])).map
        (brjpFinalize targets (brjpCutoff now)) := by
  unfold process_brjp_projects
  exact alLookup_map key _ _

/-! ## Claim theorems -/

/-- C1: for every pair of keyword-match lists, every valuation and every
auto-flag threshold, `score_hvac_relevance` returns exactly the five-rule
first-match-wins decision table of spec §4.3, and in particular
`(False, True, 5000000, 10000000) ↦ "high"`,
`(False, True, 4999999, 10000000) ↦ "medium"` and
`(False, False, 0, 10000000) ↦ "low"`. -/
theorem c1_relevance_scorer_table :
    (∀ (matched_direct matched_type : List String) (valuation threshold : PyFloat),
      score_hvac_relevance matched_direct matched_type valuation threshold =
        relevanceTable (!matched_direct.isEmpty) (!matched_type.isEmpty)
          valuation threshold) ∧
    score_hvac_relevance [] ["kw"] (.finite 5000000) (.finite 10000000) = "high" ∧
    score_hvac_relevance [] ["kw"] (.finite 4999999) (.finite 10000000) = "medium" ∧
    score_hvac_relevance [] [] (.finite 0) (.finite 10000000) = "low" :=
  ⟨fun _ _ _ _ => rfl, by decide, by decide, by decide⟩

/-- C2: `parse_valuation` always returns (`ValueError` is caught), and
`parse_sqft` returns `0` on absent and on non-parsing input — but it raises
an uncaught `OverflowError` exactly when the stripped field parses as an
infinite float (for example `"inf"` or `"Infinity"`), because
`int(float(s))` raises `OverflowError`, which the `except (ValueError,
TypeError)` clause does not catch. -/
theorem c2_parsers_zero_default (s : String) :
    parse_valuation none = .finite 0 ∧
    parse_sqft none = .ok 0 ∧
    (parse_sqft (some s) = .error .overflowError ↔
      s ≠ "" ∧
        (pyFloatChars? ((pyStrip s.toList).filter (fun c => !(c = ',' || c = ' ')))
            = some .inf ∨
         pyFloatChars? ((pyStrip s.toList).filter (fun c => !(c = ',' || c = ' ')))
            = some .negInf)) ∧
    parse_sqft (some "inf") = .error .overflowError ∧
    parse_sqft (some "Infinity") = .error .overflowError := by
  refine ⟨rfl, rfl, ?_, by rfl, by rfl⟩
  by_cases hs : s = ""
  · subst hs
    simp [parse_sqft]
  · simp only [parse_sqft, if_neg hs]
    rcases hpf : pyFloatChars?
        ((pyStrip s.toList).filter (fun c => !(c = ',' || c = ' '))) with _ | f
    · simp [hpf, hs]
    · cases f <;> simp [hpf, hs]

/-- C4: for every aggregated Compliance Project and configured targets,
`compliance_status` is `compliant` iff all three percentages meet their
targets, `partial` iff at least one but not all do, and `non-compliant`
iff none does. -/
theorem c4_compliance_status (rows : List BrjpRow) (targets : BrjpTargets)
    (now : RunTime) (key : String × String) (p : CProj)
    (h : alLookup key (process_brjp_projects rows targets now) = some p) :
    (p.compliance_status = "compliant" ↔
      (p.resident_pct ≥ targets.resident_pct ∧ p.poc_pct ≥ targets.poc_pct ∧
        p.women_pct ≥ targets.women_pct)) ∧
    (p.compliance_status = "partial" ↔
      ((p.resident_pct ≥ targets.resident_pct ∨ p.poc_pct ≥ targets.poc_pct ∨
        p.women_pct ≥ targets.women_pct) ∧
       ¬(p.resident_pct ≥ targets.resident_pct ∧ p.poc_pct ≥ targets.poc_pct ∧
        p.women_pct ≥ targets.women_pct))) ∧
    (p.compliance_status = "non-compliant" ↔
      ¬(p.resident_pct ≥ targets.resident_pct ∨ p.poc_pct ≥ targets.poc_pct ∨
        p.women_pct ≥ targets.women_pct)) := by
  rw [lookup_process_brjp] at h
  rcases Option.map_eq_some'.mp h with ⟨p0, _, rfl⟩
  simp only [brjpFinalize]
  split_ifs with h1 h2 <;> simp_all

/-- C4 witness: the single-row example aggregates to 60/50/20 percent against
targets 51/40/12, so all three targets are met and the status is compliant. -/
theorem c4_compliance_status_witness :
    (cProj0.compliance_status = "compliant" ↔
      (cProj0.resident_pct ≥ targets0.resident_pct ∧ cProj0.poc_pct ≥ targets0.poc_pct ∧
        cProj0.women_pct ≥ targets0.women_pct)) ∧
    (cProj0.compliance_status = "partial" ↔
      ((cProj0.resident_pct ≥ targets0.resident_pct ∨ cProj0.poc_pct ≥ targets0.poc_pct ∨
        cProj0.women_pct ≥ targets0.women_pct) ∧
       ¬(cProj0.resident_pct ≥ targets0.resident_pct ∧ cProj0.poc_pct ≥ targets0.poc_pct ∧
        cProj0.women_pct ≥ targets0.women_pct))) ∧
    (cProj0.compliance_status = "non-compliant" ↔
      ¬(cProj0.resident_pct ≥ targets0.resident_pct ∨ cProj0.poc_pct ≥ targets0.poc_pct ∨
        cProj0.women_pct ≥ targets0.women_pct)) :=
  c4_compliance_status [brjpRow0] targets0 now0 ("Parcel P3", "#") cProj0
    (by with_unfolding_all decide)

/-- C5: for every aggregated Compliance Project, the three percentages are
`hours / total_hours * 100` when `total_hours > 0` and all `0` when
`total_hours = 0`; the division is guarded by `total_hours > 0`. -/
theorem c5_percentages_guarded (rows : List BrjpRow) (targets : BrjpTargets)
    (now : RunTime) (key : String × String) (p : CProj)
    (h : alLookup key (process_brjp_projects rows targets now) = some p) :
    (p.total_hours > 0 →
      p.resident_pct = p.resident_hours / p.total_hours * 100 ∧
      p.poc_pct = p.poc_hours / p.total_hours * 100 ∧
      p.women_pct = p.women_hours / p.total_hours * 100) ∧
    (p.total_hours = 0 →
      p.resident_pct = 0 ∧ p.poc_pct = 0 ∧ p.women_pct = 0) := by
  rw [lookup_process_brjp] at h
  rcases Option.map_eq_some'.mp h with ⟨p0, _, rfl⟩
  simp only [brjpFinalize]
  constructor
  · intro hpos
    simp_all
  · intro hzero
    simp_all

/-- C5 witness: the single-row example has 10 total hours, and its
percentages are 60, 50 and 20. -/
theorem c5_percentages_guarded_witness :
    (cProj0.total_hours > 0 →
      cProj0.resident_pct = cProj0.resident_hours / cProj0.total_hours * 100 ∧
      cProj0.poc_pct = cProj0.poc_hours / cProj0.total_hours * 100 ∧
      cProj0.women_pct = cProj0.women_hours / cProj0.total_hours * 100) ∧
    (cProj0.total_hours = 0 →
      cProj0.resident_pct = 0 ∧ cProj0.poc_pct = 0 ∧ cProj0.women_pct = 0) :=
  c5_percentages_guarded [brjpRow0] targets0 now0 ("Parcel P3", "#") cProj0
    (by with_unfolding_all decide)

/-- C7: the `Active` cutoff is the first day of the month six calendar months
before the run month (months 1 to 6 borrow a year), and a project is
`active` iff its most recent reporting period is non-empty and at least the
cutoff under string comparison, else `completed`. -/
theorem c7_active_cutoff (rows : List BrjpRow) (targets : BrjpTargets)
    (now : RunTime) (key : String × String) (p : CProj)
    (h : alLookup key (process_brjp_projects rows targets now) = some p) :
    brjpCutoff now =
      (if 1 ≤ now.month ∧ now.month ≤ 6 then
        toString (now.year - 1) ++ "-" ++ pad2 (now.month + 6) ++ "-01"
      else if 7 ≤ now.month ∧ now.month ≤ 12 then
        toString now.year ++ "-" ++ pad2 (now.month - 6) ++ "-01"
      else brjpCutoff now) ∧
    (p.project_status = "active" ↔
      (p.last_period ≠ "" ∧ pyStrGe p.last_period (brjpCutoff now))) ∧
    (p.project_status = "completed" ↔
      ¬(p.last_period ≠ "" ∧ pyStrGe p.last_period (brjpCutoff now))) := by
  rw [lookup_process_brjp] at h
  rcases Option.map_eq_some'.mp h with ⟨p0, _, rfl⟩
  refine ⟨?_, ?_⟩
  · unfold brjpCutoff
    by_cases h6 : 6 < now.month
    · have h1 : ¬(1 ≤ now.month ∧ now.month ≤ 6) := by omega
      by_cases h12 : now.month ≤ 12
      · simp [h6, h1, show 7 ≤ now.month ∧ now.month ≤ 12 by omega]
      · simp [h6, h1, show ¬(7 ≤ now.month ∧ now.month ≤ 12) by omega]
    · have h7 : ¬(7 ≤ now.month ∧ now.month ≤ 12) := by omega
      by_cases h1 : 1 ≤ now.month
      · simp [h6, h7, show 1 ≤ now.month ∧ now.month ≤ 6 by omega]
      · simp [h6, h7, show ¬(1 ≤ now.month ∧ now.month ≤ 6) by omega]
  · simp only [brjpFinalize]
    split_ifs with hc <;> simp_all

/-- C7 witness: run month October 2026 gives the cutoff `2026-04-01`, and the
example project reported `2026-09-30`, so it is active. -/
theorem c7_active_cutoff_witness :
    brjpCutoff now0 =
      (if 1 ≤ now0.month ∧ now0.month ≤ 6 then
        toString (now0.year - 1) ++ "-" ++ pad2 (now0.month + 6) ++ "-01"
      else if 7 ≤ now0.month ∧ now0.month ≤ 12 then
        toString now0.year ++ "-" ++ pad2 (now0.month - 6) ++ "-01"
      else brjpCutoff now0) ∧
    (cProj0.project_status = "active" ↔
      (cProj0.last_period ≠ "" ∧ pyStrGe cProj0.last_period (brjpCutoff now0))) ∧
    (cProj0.project_status = "completed" ↔
      ¬(cProj0.last_period ≠ "" ∧ pyStrGe cProj0.last_period (brjpCutoff now0))) :=
  c7_active_cutoff [brjpRow0] targets0 now0 ("Parcel P3", "#") cProj0
    (by with_unfolding_all decide)

/-- C10: `identify_new_projects` preserves the length and order of the list
and, at every position, sets `is_new` to whether the id is not in the seen
set while leaving every other field unchanged. -/
theorem c10_identify_new_frame (projects : List Project) (seen_ids : List String)
    (i : Nat) (p q : Project)
    (hp : projects[i]? = some p)
    (hq : (identify_new_projects projects seen_ids)[i]? = some q) :
    (identify_new_projects projects seen_ids).length = projects.length ∧
    (q.is_new = true ↔ ¬ p.id ∈ seen_ids) ∧
    q.id = p.id ∧ q.name = p.name ∧ q.address = p.address ∧
    q.neighborhood = p.neighborhood ∧ q.status = p.status ∧
    q.record_type = p.record_type ∧ q.sqft = p.sqft ∧
    q.estimated_valuation = p.estimated_valuation ∧ q.description = p.description ∧
    q.proposed_use = p.proposed_use ∧ q.board_approval_date = p.board_approval_date ∧
    q.last_filed_date = p.last_filed_date ∧ q.website_url = p.website_url ∧
    q.primary_date = p.primary_date ∧ q.keywords_matched = p.keywords_matched ∧
    q.hvac_relevance = p.hvac_relevance ∧ q.source = p.source ∧
    q.permit_type = p.permit_type ∧ q.permit_number = p.permit_number ∧
    q.applicant = p.applicant ∧ q.worktype = p.worktype ∧
    q.permit_type_descr = p.permit_type_descr ∧
    q.expiration_date = p.expiration_date ∧ q.issued_date = p.issued_date ∧
    q.valuation = p.valuation ∧ q.brjp = p.brjp := by
  have hlen : (identify_new_projects projects seen_ids).length = projects.length :=
    List.length_map _ _
  have hmap : (identify_new_projects projects seen_ids)[i]? =
      (projects[i]?).map (fun p => { p with is_new := ¬ p.id ∈ seen_ids }) :=
    List.getElem?_map _ _ _
  rw [hmap, hp] at hq
  simp only [Option.map_some', Option.some.injEq] at hq
  subst hq
  refine ⟨hlen, ?_⟩
  simp

/-- C10 witness: on a one-element list whose project id `""` is not among the
seen ids `["x"]`, the result is marked new and all other fields survive. -/
theorem c10_identify_new_frame_witness :
    (identify_new_projects [projHash] ["x"]).length = [projHash].length ∧
    (({ projHash with is_new := true } : Project).is_new = true ↔
      ¬ projHash.id ∈ ["x"]) ∧
    ({ projHash with is_new := true } : Project).id = projHash.id ∧
    ({ projHash with is_new := true } : Project).name = projHash.name ∧
    ({ projHash with is_new := true } : Project).address = projHash.address ∧
    ({ projHash with is_new := true } : Project).neighborhood = projHash.neighborhood ∧
    ({ projHash with is_new := true } : Project).status = projHash.status ∧
    ({ projHash with is_new := true } : Project).record_type = projHash.record_type ∧
    ({ projHash with is_new := true } : Project).sqft = projHash.sqft ∧
    ({ projHash with is_new := true } : Project).estimated_valuation =
      projHash.estimated_valuation ∧
    ({ projHash with is_new := true } : Project).description = projHash.description ∧
    ({ projHash with is_new := true } : Project).proposed_use = projHash.proposed_use ∧
    ({ projHash with is_new := true } : Project).board_approval_date =
      projHash.board_approval_date ∧
    ({ projHash with is_new := true } : Project).last_filed_date =
      projHash.last_filed_date ∧
    ({ projHash with is_new := true } : Project).website_url = projHash.website_url ∧
    ({ projHash with is_new := true } : Project).primary_date = projHash.primary_date ∧
    ({ projHash with is_new := true } : Project).keywords_matched =
      projHash.keywords_matched ∧
    ({ projHash with is_new := true } : Project).hvac_relevance =
      projHash.hvac_relevance ∧
    ({ projHash with is_new := true } : Project).source = projHash.source ∧
    ({ projHash with is_new := true } : Project).permit_type = projHash.permit_type ∧
    ({ projHash with is_new := true } : Project).permit_number =
      projHash.permit_number ∧
    ({ projHash with is_new := true } : Project).applicant = projHash.applicant ∧
    ({ projHash with is_new := true } : Project).worktype = projHash.worktype ∧
    ({ projHash with is_new := true } : Project).permit_type_descr =
      projHash.permit_type_descr ∧
    ({ projHash with is_new := true } : Project).expiration_date =
      projHash.expiration_date ∧
    ({ projHash with is_new := true } : Project).issued_date = projHash.issued_date ∧
    ({ projHash with is_new := true } : Project).valuation = projHash.valuation ∧
    ({ projHash with is_new := true } : Project).brjp = projHash.brjp :=
  c10_identify_new_frame [projHash] ["x"] 0 projHash { projHash with is_new := true }
    (by rfl) (by rfl)

/-! ## Cross-source matcher lemmas and C8 -/

theorem alLookup_alInsert_self {β : Type} (k : String) (v : β) (m : List (String × β)) :
    alLookup k (alInsert k v m) = some v := by
  induction m with
  | nil => simp [alInsert, alLookup]
  | cons kv rest ih =>
    by_cases hk : kv.1 = k
    · simp [alInsert, alLookup, hk]
    · simp [alInsert, alLookup, hk, ih]

theorem alLookup_alInsert_ne {β : Type} (k k2 : String) (v : β) (m : List (String × β))
    (hne : k2 ≠ k) : alLookup k (alInsert k2 v m) = alLookup k m := by
  induction m with
  | nil => simp [alInsert, alLookup, hne]
  | cons kv rest ih =>
    by_cases hk : kv.1 = k2
    · simp [alInsert, alLookup, hk, hne]
    · simp only [alInsert, if_neg hk]
      by_cases hk2 : kv.1 = k
      · simp [alLookup, hk2]
      · simp [alLookup, hk2, ih]

theorem specLastWriteLookup_empty_key (bps : List ((String × String) × CProj)) :
    specLastWriteLookup "" bps = none := by
  induction bps with
  | nil => rfl
  | cons kp rest ih => simp [specLastWriteLookup, ih]

theorem lookup_foldInsert (bps : List ((String × String) × CProj)) :
    ∀ (acc : List (String × CProj)) (k : String),
    alLookup k (bps.foldl
      (fun m kp => if kp.2.norm_address ≠ "" then alInsert kp.2.norm_address kp.2 m else m)
      acc) =
      (match specLastWriteLookup k bps with
       | some v => some v
       | none => alLookup k acc) := by
  induction bps with
  | nil => intro acc k; rfl
  | cons kp rest ih =>
    intro acc k
    simp only [List.foldl_cons, specLastWriteLookup]
    rw [ih]
    rcases hrest : specLastWriteLookup k rest with _ | v
    · simp only
      by_cases hmatch : kp.2.norm_address = k ∧ k ≠ ""
      · rw [if_pos hmatch]
        have hne : kp.2.norm_address ≠ "" := by
          rw [hmatch.1]; exact hmatch.2
        rw [if_pos hne, hmatch.1, alLookup_alInsert_self]
      · rw [if_neg hmatch]
        by_cases hne : kp.2.norm_address ≠ ""
        · rw [if_pos hne, alLookup_alInsert_ne]
          intro heq
          exact hmatch ⟨heq, by intro hk; rw [hk] at heq; exact hne heq⟩
        · rw [if_neg hne]
    · simp

/-- C8 (amended): the matcher attaches, to every project whose normalized
address is non-empty, the compliance project of the last entry with that
normalized address (last write wins), and `none` otherwise; projects whose
address normalizes to the empty string never match, even when a compliance
project's address also normalizes to the empty string. -/
theorem c8_matcher_amended (tracker_projects : List Project)
    (brjp_projects : List ((String × String) × CProj)) :
    (match_brjp_to_projects tracker_projects brjp_projects).1 =
      tracker_projects.map (fun p =>
        { p with brjp := specLastWriteLookup (normalize_address p.address) brjp_projects }) := by
  unfold match_brjp_to_projects
  simp only
  apply List.map_congr_left
  intro p _
  by_cases haddr : normalize_address p.address ≠ ""
  · rw [if_pos haddr, lookup_foldInsert]
    rcases hspec : specLastWriteLookup (normalize_address p.address) brjp_projects with _ | v
    · simp [alLookup]
    · simp
  · rw [if_neg haddr]
    rw [Decidable.not_not] at haddr
    rw [haddr, specLastWriteLookup_empty_key]

/-- C8 (counterexample): a project with address `"#"` and a compliance
project with the same address both normalize to `""`; their normalized
addresses are equal, yet the matcher attaches `none`. -/
theorem c8_matcher_counterexample :
    normalize_address projHash.address = cprojHash.norm_address ∧
    (match_brjp_to_projects [projHash] [ (("X", "#"), cprojHash) ]).1.map
      (fun p => p.brjp) = [none] := by
  constructor
  · rfl
  · rfl

/-! ## Sign lemmas for the numeric parsers and C9 -/


/-! ## Sign lemmas for the numeric parsers and C9 -/

theorem parseMantissa_nonneg (cs : List Char) (mag : Rat) (rest : List Char)
    (h : parseMantissa? cs = some (mag, rest)) : 0 ≤ mag := by
  unfold parseMantissa? at h
  rcases hspan : cs.span isDigitOrUnderscore with ⟨ip, r1⟩
  rw [hspan] at h
  simp only at h
  split at h
  · split at h
    · split at h
      · simp only [Option.some.injEq, Prod.mk.injEq] at h
        rw [← h.1]
        positivity
      · simp at h
    · simp at h
  · split at h
    · split at h
      · split at h
        · simp only [Option.some.injEq, Prod.mk.injEq] at h
          rw [← h.1]
          positivity
        · split at h
          · simp only [Option.some.injEq, Prod.mk.injEq] at h
            rw [← h.1]
            positivity
          · simp at h
      · simp only [Option.some.injEq, Prod.mk.injEq] at h
        rw [← h.1]
        positivity
    · simp at h

theorem parseExponent_nonneg (mag : Rat) (rest : List Char) (m : Rat)
    (hmag : 0 ≤ mag) (h : parseExponent? mag rest = some m) : 0 ≤ m := by
  rcases rest with _ | ⟨e, r4⟩
  · simp only [parseExponent?, Option.some.injEq] at h
    rw [← h]
    exact hmag
  · simp only [parseExponent?] at h
    split at h
    · rcases hdg : parseDigitGroup? (expSign r4).2 with _ | ⟨v, l, r6⟩
      · rw [hdg] at h
        simp at h
      · rw [hdg] at h
        split at h
        · split at h
          · simp only [Option.some.injEq] at h
            rw [← h]
            exact mul_nonneg hmag (by positivity)
          · simp at h
        · simp at h
    · simp at h

theorem pyFloatMagnitude_nonneg (cs : List Char) (m : Rat)
    (h : pyFloatMagnitude? cs = some m) : 0 ≤ m := by
  unfold pyFloatMagnitude? at h
  rcases hm : parseMantissa? cs with _ | ⟨mag, rest⟩
  · rw [hm] at h; exact absurd h (by simp)
  · rw [hm] at h
    exact parseExponent_nonneg mag rest m (parseMantissa_nonneg cs mag rest hm) h

theorem pyFloatSigned_false_nonneg (cs1 : List Char) (q : Rat)
    (h : pyFloatSigned false cs1 = some (.finite q)) : 0 ≤ q := by
  unfold pyFloatSigned at h
  simp only [Bool.false_eq_true, if_false] at h
  split at h
  · simp at h
  · split at h
    · simp at h
    · rcases hm : pyFloatMagnitude? cs1 with _ | mag
      · rw [hm] at h
        simp at h
      · rw [hm] at h
        simp only [Option.some.injEq, PyFloat.finite.injEq] at h
        rw [← h]
        exact pyFloatMagnitude_nonneg cs1 mag hm

theorem pyFloatChars_finite_nonneg (cs0 : List Char) (q : Rat)
    (h : pyFloatChars? cs0 = some (.finite q))
    (hm : (pyStrip cs0).head? ≠ some '-') : 0 ≤ q := by
  unfold pyFloatChars? at h
  split at h
  · exact pyFloatSigned_false_nonneg _ _ h
  · next r heq =>
      rw [heq] at hm
      simp at hm
  · exact pyFloatSigned_false_nonneg _ _ h

theorem parse_sqft_ok_nonneg (v : Option String) (n : Int)
    (h : parse_sqft v = .ok n)
    (hm : ∀ s, v = some s → (sqftSignificand s).head? ≠ some '-') : 0 ≤ n := by
  rcases v with _ | s
  · simp only [parse_sqft, Except.ok.injEq] at h
    omega
  · by_cases hs : s = ""
    · subst hs
      rw [show parse_sqft (some "") = Except.ok 0 from rfl] at h
      simp only [Except.ok.injEq] at h
      omega
    · simp only [parse_sqft, if_neg hs] at h
      rcases hpf : pyFloatChars?
          ((pyStrip s.toList).filter (fun c => !(c = ',' || c = ' '))) with _ | f
      · rw [hpf] at h
        simp only [Except.ok.injEq] at h
        omega
      · rw [hpf] at h
        rcases f with qf | _ | _ | _
        · simp only [Except.ok.injEq] at h
          have hq : 0 ≤ qf := by
            apply pyFloatChars_finite_nonneg _ _ hpf
            exact hm s rfl
          rw [← h]
          unfold truncRat
          rw [if_neg (by exact not_lt.mpr hq)]
          exact Rat.le_floor.mpr (by exact_mod_cast hq)
        · simp at h
        · simp at h
        · simp only [Except.ok.injEq] at h
          omega

theorem exceptBind_error {α β : Type} (e : PyErr) (f : α → Except PyErr β) :
    (Except.error e >>= f) = Except.error e := rfl

theorem exceptBind_ok {α β : Type} (a : α) (f : α → Except PyErr β) :
    (Except.ok a >>= f) = f a := rfl

theorem exceptPure {α : Type} (a : α) : (pure a : Except PyErr α) = Except.ok a := rfl

theorem processA80Rec_sqft (config : Config) (r : A80Record) (p : Project)
    (h : processA80Rec config r = .ok (some p)) :
    parse_sqft (some (r.gross_square_footage.getD "")) = .ok p.sqft := by
  unfold processA80Rec at h
  rcases hp : parse_sqft (some (r.gross_square_footage.getD "")) with e | n
  · rw [hp] at h
    simp only [exceptBind_error] at h
    exact absurd h (by simp)
  · rw [hp] at h
    simp only [exceptBind_ok] at h
    split at h
    · rw [exceptPure] at h
      exact absurd h (by simp)
    · simp only [exceptBind_ok, exceptPure, Except.ok.injEq, Option.some.injEq] at h
      rw [← h]

theorem processPermitRec_sqft (config : Config) (r : PermitRecord) (p : Project)
    (h : processPermitRec config r = .ok (some p)) :
    parse_sqft (some (r.sq_feet.getD "")) = .ok p.sqft := by
  simp only [processPermitRec, exceptPure] at h
  split at h
  · exact absurd h (by simp)
  · simp only [exceptBind_ok] at h
    split at h
    · exact absurd h (by simp)
    · rcases hp : parse_sqft (some (r.sq_feet.getD "")) with e | n
      · rw [hp] at h
        simp only [exceptBind_error] at h
        exact absurd h (by simp)
      · rw [hp] at h
        simp only [exceptBind_ok, exceptPure, Except.ok.injEq, Option.some.injEq] at h
        rw [← h]

theorem process_article80_mem (config : Config) (records : List A80Record)
    (ps : List Project) (h : process_article80 records config = .ok ps) :
    ∀ p ∈ ps, ∃ r ∈ records, processA80Rec config r = .ok (some p) := by
  induction records generalizing ps with
  | nil =>
    intro p hp
    rw [show process_article80 [] config = .ok [] from rfl] at h
    simp only [Except.ok.injEq] at h
    subst h
    simp at hp
  | cons r rest ih =>
    intro p hp
    unfold process_article80 at h
    rcases hr : processA80Rec config r with e | p?
    · rw [hr] at h
      simp only [exceptBind_error] at h
      exact absurd h (by simp)
    · rw [hr] at h
      simp only [exceptBind_ok] at h
      rcases hrest : process_article80 rest config with e | ps2
      · rw [hrest] at h
        simp only [exceptBind_error] at h
        exact absurd h (by simp)
      · rw [hrest] at h
        simp only [exceptBind_ok, exceptPure, Except.ok.injEq] at h
        rcases p? with _ | pHead
        · simp only at h
          subst h
          obtain ⟨r2, hr2, hproc⟩ := ih ps2 hrest p hp
          exact ⟨r2, List.mem_cons_of_mem _ hr2, hproc⟩
        · simp only at h
          subst h
          rcases List.mem_cons.mp hp with heq | hmem
          · subst heq
            exact ⟨r, List.mem_cons_self r rest, hr⟩
          · obtain ⟨r2, hr2, hproc⟩ := ih ps2 hrest p hmem
            exact ⟨r2, List.mem_cons_of_mem _ hr2, hproc⟩

theorem process_permits_mem (config : Config) (records : List PermitRecord)
    (ps : List Project) (h : process_permits records config = .ok ps) :
    ∀ p ∈ ps, ∃ r ∈ records, processPermitRec config r = .ok (some p) := by
  induction records generalizing ps with
  | nil =>
    intro p hp
    rw [show process_permits [] config = .ok [] from rfl] at h
    simp only [Except.ok.injEq] at h
    subst h
    simp at hp
  | cons r rest ih =>
    intro p hp
    unfold process_permits at h
    rcases hr : processPermitRec config r with e | p?
    · rw [hr] at h
      simp only [exceptBind_error] at h
      exact absurd h (by simp)
    · rw [hr] at h
      simp only [exceptBind_ok] at h
      rcases hrest : process_permits rest config with e | ps2
      · rw [hrest] at h
        simp only [exceptBind_error] at h
        exact absurd h (by simp)
      · rw [hrest] at h
        simp only [exceptBind_ok, exceptPure, Except.ok.injEq] at h
        rcases p? with _ | pHead
        · simp only at h
          subst h
          obtain ⟨r2, hr2, hproc⟩ := ih ps2 hrest p hp
          exact ⟨r2, List.mem_cons_of_mem _ hr2, hproc⟩
        · simp only at h
          subst h
          rcases List.mem_cons.mp hp with heq | hmem
          · subst heq
            exact ⟨r, List.mem_cons_self r rest, hr⟩
          · obtain ⟨r2, hr2, hproc⟩ := ih ps2 hrest p hmem
            exact ⟨r2, List.mem_cons_of_mem _ hr2, hproc⟩

/-- C9 (amended): for both source processors, the `sqft` of every produced
Project is non-negative whenever no raw square-footage field carries a
leading minus sign after stripping; a negative raw value flows through
unclamped (see the counterexample), so non-negativity is conditional. -/
theorem c9_sqft_amended :
    (∀ (records : List A80Record) (config : Config) (ps : List Project),
      process_article80 records config = .ok ps →
      (∀ r ∈ records,
        (sqftSignificand (r.gross_square_footage.getD "")).head? ≠ some '-') →
      ∀ p ∈ ps, 0 ≤ p.sqft) ∧
    (∀ (records : List PermitRecord) (config : Config) (ps : List Project),
      process_permits records config = .ok ps →
      (∀ r ∈ records, (sqftSignificand (r.sq_feet.getD "")).head? ≠ some '-') →
      ∀ p ∈ ps, 0 ≤ p.sqft) := by
  constructor
  · intro records config ps h hminus p hp
    obtain ⟨r, hr, hproc⟩ := process_article80_mem config records ps h p hp
    have hsq := processA80Rec_sqft config r p hproc
    apply parse_sqft_ok_nonneg _ _ hsq
    intro s hs
    rw [Option.some.injEq] at hs
    rw [← hs]
    exact hminus r hr
  · intro records config ps h hminus p hp
    obtain ⟨r, hr, hproc⟩ := process_permits_mem config records ps h p hp
    have hsq := processPermitRec_sqft config r p hproc
    apply parse_sqft_ok_nonneg _ _ hsq
    intro s hs
    rw [Option.some.injEq] at hs
    rw [← hs]
    exact hminus r hr

/-- C9 (witness): the 60,000 square-foot record has no minus sign, and the
resulting project's square footage 60000 is non-negative. -/
theorem c9_sqft_amended_witness : 0 ≤ pPos.sqft :=
  c9_sqft_amended.1 [a80Pos] cfg0 [pPos] (by with_unfolding_all rfl)
    (by decide) pPos (by simp)

/-- C9 (counterexample): an Article 80 record whose square-footage field is
`"-100"` passes the inclusion filter and produces a Project whose `sqft`
field is the negative integer `-100`. -/
theorem c9_sqft_counterexample :
    process_article80 [a80Neg] cfg0 = .ok [pNeg] ∧ pNeg.sqft = -100 ∧ pNeg.sqft < 0 :=
  ⟨by with_unfolding_all rfl, by decide, by decide⟩

/-! ## Grouping-loop lemmas for C6 -/

theorem alLookup_append {α β : Type} [DecidableEq α] (k : α) (m l : List (α × β)) :
    alLookup k (m ++ l) =
      (match alLookup k m with
       | some v => some v
       | none => alLookup k l) := by
  induction m with
  | nil => rfl
  | cons kv rest ih =>
    by_cases hk : kv.1 = k
    · simp [alLookup, hk]
    · simp [alLookup, hk, ih]

theorem alLookup_alUpdate_self {α β : Type} [DecidableEq α] (k : α) (f : β → β)
    (m : List (α × β)) :
    alLookup k (alUpdate k f m) = (alLookup k m).map f := by
  induction m with
  | nil => rfl
  | cons kv rest ih =>
    by_cases hk : kv.1 = k
    · simp [alLookup, alUpdate, hk]
    · simp [alLookup, alUpdate, hk, ih]

theorem alLookup_alUpdate_ne {α β : Type} [DecidableEq α] (k k2 : α) (f : β → β)
    (m : List (α × β)) (hne : k2 ≠ k) :
    alLookup k (alUpdate k2 f m) = alLookup k m := by
  induction m with
  | nil => rfl
  | cons kv rest ih =>
    by_cases hk2 : kv.1 = k2
    · have h3 : ¬ kv.1 = k := by rw [hk2]; exact hne
      simp [alLookup, alUpdate, hk2, h3, hne]
    · by_cases hk : kv.1 = k
      · have h4 : k ≠ k2 := Ne.symm hne
        simp [alLookup, alUpdate, hk2, hk, h4]
      · simp [alLookup, alUpdate, hk2, hk, ih]

theorem brjpStep_lookup_other (m : List ((String × String) × CProj)) (r : BrjpRow)
    (key : String × String) (hne : brjpKeyOf r ≠ key) :
    alLookup key (brjpStep m r) = alLookup key m := by
  unfold brjpStep
  rcases hl : alLookup (brjpKeyOf r) m with _ | p
  · rw [alLookup_append]
    rcases alLookup key m with _ | v
    · simp [alLookup, hne]
    · simp
  · exact alLookup_alUpdate_ne key (brjpKeyOf r) _ m hne

theorem brjpStep_lookup_none (m : List ((String × String) × CProj)) (r : BrjpRow)
    (hl : alLookup (brjpKeyOf r) m = none) :
    alLookup (brjpKeyOf r) (brjpStep m r) = some (brjpInitRow r) := by
  unfold brjpStep
  rw [hl, alLookup_append, hl]
  simp [alLookup]

theorem brjpStep_lookup_merge (m : List ((String × String) × CProj)) (r : BrjpRow)
    (p : CProj) (hl : alLookup (brjpKeyOf r) m = some p) :
    alLookup (brjpKeyOf r) (brjpStep m r) = some (brjpMergeRow p r) := by
  unfold brjpStep
  rw [hl, alLookup_alUpdate_self, hl]
  rfl

theorem specFold_cons_none (key : String × String) (r : BrjpRow) (rest : List BrjpRow)
    (hk : brjpKeyOf r = key) :
    specFold key none (r :: rest) = specFold key (some (brjpInitRow r)) rest := by
  rw [specFold, if_pos hk]

theorem specFold_cons_some (key : String × String) (r : BrjpRow) (rest : List BrjpRow)
    (p : CProj) (hk : brjpKeyOf r = key) :
    specFold key (some p) (r :: rest) = specFold key (some (brjpMergeRow p r)) rest := by
  rw [specFold, if_pos hk]

theorem specFold_cons_skip (key : String × String) (r : BrjpRow) (rest : List BrjpRow)
    (cur : Option CProj) (hk : ¬ brjpKeyOf r = key) :
    specFold key cur (r :: rest) = specFold key cur rest := by
  rcases cur with _ | p <;> rw [specFold, if_neg hk]

theorem foldl_brjpStep_lookup (rows : List BrjpRow) :
    ∀ (m : List ((String × String) × CProj)) (key : String × String),
    alLookup key (rows.foldl brjpStep m) = specFold key (alLookup key m) rows := by
  induction rows with
  | nil => intro m key; rfl
  | cons r rest ih =>
    intro m key
    rw [List.foldl_cons, ih]
    by_cases hk : brjpKeyOf r = key
    · subst hk
      rcases hl : alLookup (brjpKeyOf r) m with _ | p
      · rw [brjpStep_lookup_none m r hl, specFold_cons_none _ _ _ rfl]
      · rw [brjpStep_lookup_merge m r p hl, specFold_cons_some _ _ _ _ rfl]
    · rw [brjpStep_lookup_other m r key hk, specFold_cons_skip _ _ _ _ hk]

theorem specFold_some (key : String × String) (rows : List BrjpRow) :
    ∀ (p : CProj),
    specFold key (some p) rows =
      some ((rows.filter (fun r => brjpKeyOf r = key)).foldl brjpMergeRow p) := by
  induction rows with
  | nil => intro p; rfl
  | cons r rest ih =>
    intro p
    by_cases hk : brjpKeyOf r = key
    · rw [specFold_cons_some _ _ _ _ hk, ih]
      simp [List.filter_cons, hk]
    · rw [specFold_cons_skip _ _ _ _ hk, ih]
      simp [List.filter_cons, hk]

theorem specFold_none (key : String × String) (rows : List BrjpRow) :
    specFold key none rows =
      (match rows.filter (fun r => brjpKeyOf r = key) with
       | [] => none
       | g0 :: grest => some (grest.foldl brjpMergeRow (brjpInitRow g0))) := by
  induction rows with
  | nil => rfl
  | cons r rest ih =>
    by_cases hk : brjpKeyOf r = key
    · rw [specFold_cons_none _ _ _ hk, specFold_some]
      simp [List.filter_cons, hk]
    · rw [specFold_cons_skip _ _ _ _ hk, ih]
      simp [List.filter_cons, hk]

/-! ## Field lemmas for the aggregate characterization -/

theorem pyStrGt_empty_if (s : String) : (if pyStrGt s "" = true then s else "") = s := by
  unfold pyStrGt
  rcases hs : s.toList with _ | ⟨c, cs⟩
  · have hempty : s = "" := by
      apply String.ext
      exact hs
    rw [hempty]
    simp [pyStrLtChars]
  · simp [pyStrLtChars]

theorem strMax_singleton (s : String) : strMaxFrom "" [s] = s := by
  unfold strMaxFrom
  simp only [List.foldl_cons, List.foldl_nil]
  exact pyStrGt_empty_if s

theorem strMaxFrom_append (a x : String) (l : List String) :
    strMaxFrom a (l ++ [x]) =
      (if pyStrGt x (strMaxFrom a l) = true then x else strMaxFrom a l) := by
  unfold strMaxFrom
  rw [List.foldl_append]
  rfl

theorem firstNonEmpty_singleton (s : String) : firstNonEmpty [s] = s := by
  unfold firstNonEmpty
  by_cases hs : s = ""
  · simp [hs, List.filter_cons]
  · simp [hs, List.filter_cons]

theorem firstNonEmpty_eq_empty (l : List String) :
    firstNonEmpty l = "" ↔ l.filter (fun s => s ≠ "") = [] := by
  unfold firstNonEmpty
  rcases hf : l.filter (fun s => s ≠ "") with _ | ⟨y, ys⟩
  · simp
  · have hy : y ∈ l.filter (fun s => s ≠ "") := by rw [hf]; exact List.mem_cons_self y ys
    have hyne : y ≠ "" := by
      have := List.of_mem_filter hy
      simpa using this
    simp [hyne]

theorem firstNonEmpty_append (l : List String) (x : String) :
    firstNonEmpty (l ++ [x]) =
      (if x ≠ "" ∧ firstNonEmpty l = "" then x else firstNonEmpty l) := by
  rcases hf : l.filter (fun s => s ≠ "") with _ | ⟨y, ys⟩
  · have hl : firstNonEmpty l = "" := (firstNonEmpty_eq_empty l).mpr hf
    rw [hl]
    unfold firstNonEmpty
    rw [List.filter_append, hf]
    by_cases hx : x = ""
    · simp [hx]
    · simp [hx]
  · have hy : y ∈ l.filter (fun s => s ≠ "") := by rw [hf]; exact List.mem_cons_self y ys
    have hyne : y ≠ "" := by
      have := List.of_mem_filter hy
      simpa using this
    have hl : firstNonEmpty l = y := by
      unfold firstNonEmpty
      rw [hf]
      rfl
    rw [hl]
    unfold firstNonEmpty
    rw [List.filter_append, hf]
    simp [hyne]

theorem dedupAgencies_append (l : List String) (x : String) :
    ∀ (acc : List String),
    dedupAgencies acc (l ++ [x]) =
      (if x ≠ "" ∧ ¬ x ∈ dedupAgencies acc l then dedupAgencies acc l ++ [x]
       else dedupAgencies acc l) := by
  induction l with
  | nil =>
    intro acc
    by_cases hx : x ≠ "" ∧ ¬ x ∈ acc
    · simp [dedupAgencies, hx]
    · simp [dedupAgencies, hx]
  | cons b rest ih =>
    intro acc
    by_cases hb : b ≠ "" ∧ ¬ b ∈ acc
    · simp only [List.cons_append, dedupAgencies, if_pos hb]
      exact ih (acc ++ [b])
    · simp only [List.cons_append, dedupAgencies, if_neg hb]
      exact ih acc

theorem dedupAgencies_sub (l : List String) :
    ∀ (acc : List String), ∀ a ∈ dedupAgencies acc l, a ∈ acc ∨ (a ≠ "" ∧ a ∈ l) := by
  induction l with
  | nil =>
    intro acc a ha
    exact Or.inl ha
  | cons b rest ih =>
    intro acc a ha
    by_cases hb : b ≠ "" ∧ ¬ b ∈ acc
    · rw [dedupAgencies, if_pos hb] at ha
      rcases ih (acc ++ [b]) a ha with hacc | hrest
      · rcases List.mem_append.mp hacc with h1 | h1
        · exact Or.inl h1
        · right
          rw [List.mem_singleton] at h1
          subst h1
          exact ⟨hb.1, List.mem_cons_self a rest⟩
      · exact Or.inr ⟨hrest.1, List.mem_cons_of_mem b hrest.2⟩
    · rw [dedupAgencies, if_neg hb] at ha
      rcases ih acc a ha with h1 | h1
      · exact Or.inl h1
      · exact Or.inr ⟨h1.1, List.mem_cons_of_mem b h1.2⟩

theorem dedupAgencies_mem (l : List String) :
    ∀ (acc : List String) (a : String),
    a ∈ dedupAgencies acc l ↔ a ∈ acc ∨ (a ≠ "" ∧ a ∈ l) := by
  induction l with
  | nil =>
    intro acc a
    simp [dedupAgencies]
  | cons b rest ih =>
    intro acc a
    by_cases hb : b ≠ "" ∧ ¬ b ∈ acc
    · rw [dedupAgencies, if_pos hb, ih]
      constructor
      · rintro (hacc | hrest)
        · rcases List.mem_append.mp hacc with h1 | h1
          · exact Or.inl h1
          · rw [List.mem_singleton] at h1
            subst h1
            exact Or.inr ⟨hb.1, List.mem_cons_self a rest⟩
        · exact Or.inr ⟨hrest.1, List.mem_cons_of_mem b hrest.2⟩
      · rintro (hacc | ⟨hne, hmem⟩)
        · exact Or.inl (List.mem_append.mpr (Or.inl hacc))
        · rcases List.mem_cons.mp hmem with h1 | h1
          · subst h1
            exact Or.inl (List.mem_append.mpr (Or.inr (List.mem_singleton.mpr rfl)))
          · exact Or.inr ⟨hne, h1⟩
    · rw [dedupAgencies, if_neg hb, ih]
      constructor
      · rintro (hacc | ⟨hne, hmem⟩)
        · exact Or.inl hacc
        · exact Or.inr ⟨hne, List.mem_cons_of_mem b hmem⟩
      · rintro (hacc | ⟨hne, hmem⟩)
        · exact Or.inl hacc
        · rcases List.mem_cons.mp hmem with h1 | h1
          · subst h1
            rcases Decidable.not_and_iff_or_not.mp hb with h2 | h2
            · exact absurd hne (by simpa using h2)
            · exact Or.inl (by simpa using h2)
          · exact Or.inr ⟨hne, h1⟩

theorem dedupAgencies_nodup (l : List String) :
    ∀ (acc : List String), acc.Nodup → (dedupAgencies acc l).Nodup := by
  induction l with
  | nil =>
    intro acc h
    exact h
  | cons b rest ih =>
    intro acc hacc
    by_cases hb : b ≠ "" ∧ ¬ b ∈ acc
    · rw [dedupAgencies, if_pos hb]
      apply ih
      rw [List.nodup_append]
      refine ⟨hacc, List.nodup_singleton b, ?_⟩
      intro a ha hb2
      rw [List.mem_singleton] at hb2
      subst hb2
      exact hb.2 ha
    · rw [dedupAgencies, if_neg hb]
      exact ih acc hacc

theorem specPayload_single (key : String × String) (r : BrjpRow)
    (hk : brjpKeyOf r = key) : brjpInitRow r = specPayload key [r] := by
  unfold brjpInitRow specPayload
  have h1 : getStrip r.compliance_project_name = key.1 := congrArg Prod.fst hk
  have h2 : getStrip r.project_address = key.2 := congrArg Prod.snd hk
  rw [h1, h2]
  simp only [List.map_cons, List.map_nil, List.sum_cons, List.sum_nil, add_zero,
    strMax_singleton, firstNonEmpty_singleton]
  have hag : (if pyUpperStr (getStrip r.agency) ≠ "" then [pyUpperStr (getStrip r.agency)]
      else []) = dedupAgencies [] [pyUpperStr (getStrip r.agency)] := by
    by_cases ha : pyUpperStr (getStrip r.agency) ≠ ""
    · simp [dedupAgencies, ha]
    · simp [dedupAgencies, ha]
  rw [hag]

theorem specPayload_append (key : String × String) (group : List BrjpRow) (r : BrjpRow) :
    specPayload key (group ++ [r]) = brjpMergeRow (specPayload key group) r := by
  unfold specPayload brjpMergeRow brjpMerge
  simp only [List.map_append, List.map_cons, List.map_nil, List.sum_append,
    List.sum_cons, List.sum_nil, add_zero, dedupAgencies_append, strMaxFrom_append,
    firstNonEmpty_append]

theorem foldl_merge_payload (key : String × String) :
    ∀ (grest : List BrjpRow) (g0 : BrjpRow), brjpKeyOf g0 = key →
    grest.foldl brjpMergeRow (brjpInitRow g0) = specPayload key (g0 :: grest) := by
  intro grest
  induction grest using List.reverseRecOn with
  | nil =>
    intro g0 hg0
    exact specPayload_single key g0 hg0
  | append_singleton l x ih =>
    intro g0 hg0
    rw [List.foldl_append, List.foldl_cons, List.foldl_nil, ih g0 hg0,
      show g0 :: (l ++ [x]) = (g0 :: l) ++ [x] from rfl, specPayload_append]

/-- Full characterization of the grouping loop: looking up a key in the
dictionary built by the loop gives exactly the spec §4.7 aggregate of the
rows whose stripped name/address pair is that key. -/
theorem brjp_group_lookup (rows : List BrjpRow) (key : String × String) :
    alLookup key (rows.foldl brjpStep []) = specAgg key rows := by
  rw [foldl_brjpStep_lookup]
  rw [show alLookup key ([] : List ((String × String) × CProj)) = none from rfl]
  rw [specFold_none]
  unfold specAgg
  rcases hg : rows.filter (fun r => brjpKeyOf r = key) with _ | ⟨g0, grest⟩
  · rfl
  · have hg0 : brjpKeyOf g0 = key := by
      have : g0 ∈ rows.filter (fun r => brjpKeyOf r = key) := by
        rw [hg]
        exact List.mem_cons_self g0 grest
      simpa using List.of_mem_filter this
    simp only [List.isEmpty_cons, if_neg Bool.false_ne_true]
    rw [foldl_merge_payload key grest g0 hg0]

/-- C6 (amended): for every group of rows sharing a stripped
`(name, address)` key, the aggregator sums the four hour categories
additively, accumulates a duplicate-free list containing exactly the
non-empty uppercased agency codes of the group, keeps the string-maximal
(most recent) reporting-period date, and keeps the EARLIEST non-empty value
of the descriptive fields developer, general contractor and neighborhood
(not the most recent one — see the counterexample). -/
theorem c6_aggregator_amended (rows : List BrjpRow) (key : String × String) (p : CProj)
    (h : alLookup key (rows.foldl brjpStep []) = some p) :
    p.total_hours =
      ((rows.filter (fun r => brjpKeyOf r = key)).map (fun r => r.total_hours.getD 0)).sum ∧
    p.resident_hours =
      ((rows.filter (fun r => brjpKeyOf r = key)).map (fun r => r.resident_hours.getD 0)).sum ∧
    p.poc_hours =
      ((rows.filter (fun r => brjpKeyOf r = key)).map (fun r => r.poc_hours.getD 0)).sum ∧
    p.women_hours =
      ((rows.filter (fun r => brjpKeyOf r = key)).map (fun r => r.women_hours.getD 0)).sum ∧
    p.agencies.Nodup ∧
    (∀ a, a ∈ p.agencies ↔
      (a ≠ "" ∧ a ∈ (rows.filter (fun r => brjpKeyOf r = key)).map
        (fun r => pyUpperStr (getStrip r.agency)))) ∧
    p.last_period =
      strMaxFrom "" ((rows.filter (fun r => brjpKeyOf r = key)).map
        (fun r => getStrip r.last_period)) ∧
    p.developer =
      firstNonEmpty ((rows.filter (fun r => brjpKeyOf r = key)).map
        (fun r => getStrip r.developer)) ∧
    p.general_contractor =
      firstNonEmpty ((rows.filter (fun r => brjpKeyOf r = key)).map
        (fun r => getStrip r.general_contractor)) ∧
    p.neighborhood =
      firstNonEmpty ((rows.filter (fun r => brjpKeyOf r = key)).map
        (fun r => getStrip r.neighborhood)) := by
  rw [brjp_group_lookup] at h
  unfold specAgg at h
  have h2 : (if (rows.filter (fun r => brjpKeyOf r = key)).isEmpty = true then none
      else some (specPayload key (rows.filter (fun r => brjpKeyOf r = key)))) = some p := h
  clear h
  split at h2
  · exact absurd h2 (by simp)
  · simp only [Option.some.injEq] at h2
    subst h2
    refine ⟨rfl, rfl, rfl, rfl, dedupAgencies_nodup _ [] List.nodup_nil, ?_,
      rfl, rfl, rfl, rfl⟩
    intro a
    simp only [specPayload]
    rw [dedupAgencies_mem]
    simp

/-- C6 witness: two rows with the shared key `("P", "1 A St")` sum to 3
total hours, keep the later period `2025-06-30`, and keep the earliest
non-empty developer `Alpha`. -/
theorem c6_aggregator_amended_witness :
    cAB.total_hours =
      (([brjpRowA, brjpRowB].filter (fun r => brjpKeyOf r = ("P", "1 A St"))).map
        (fun r => r.total_hours.getD 0)).sum ∧
    cAB.resident_hours =
      (([brjpRowA, brjpRowB].filter (fun r => brjpKeyOf r = ("P", "1 A St"))).map
        (fun r => r.resident_hours.getD 0)).sum ∧
    cAB.poc_hours =
      (([brjpRowA, brjpRowB].filter (fun r => brjpKeyOf r = ("P", "1 A St"))).map
        (fun r => r.poc_hours.getD 0)).sum ∧
    cAB.women_hours =
      (([brjpRowA, brjpRowB].filter (fun r => brjpKeyOf r = ("P", "1 A St"))).map
        (fun r => r.women_hours.getD 0)).sum ∧
    cAB.agencies.Nodup ∧
    (∀ a, a ∈ cAB.agencies ↔
      (a ≠ "" ∧ a ∈ ([brjpRowA, brjpRowB].filter
        (fun r => brjpKeyOf r = ("P", "1 A St"))).map
        (fun r => pyUpperStr (getStrip r.agency)))) ∧
    cAB.last_period =
      strMaxFrom "" (([brjpRowA, brjpRowB].filter
        (fun r => brjpKeyOf r = ("P", "1 A St"))).map (fun r => getStrip r.last_period)) ∧
    cAB.developer =
      firstNonEmpty (([brjpRowA, brjpRowB].filter
        (fun r => brjpKeyOf r = ("P", "1 A St"))).map (fun r => getStrip r.developer)) ∧
    cAB.general_contractor =
      firstNonEmpty (([brjpRowA, brjpRowB].filter
        (fun r => brjpKeyOf r = ("P", "1 A St"))).map
        (fun r => getStrip r.general_contractor)) ∧
    cAB.neighborhood =
      firstNonEmpty (([brjpRowA, brjpRowB].filter
        (fun r => brjpKeyOf r = ("P", "1 A St"))).map
        (fun r => getStrip r.neighborhood)) :=
  c6_aggregator_amended [brjpRowA, brjpRowB] ("P", "1 A St") cAB
    (by with_unfolding_all decide)

/-- C6 (counterexample): in the two-row group, `Beta` is the developer of
the row with the most recent reporting period, yet the aggregator keeps
`Alpha`, the earliest non-empty developer — so the claimed most-recent
retention of descriptive fields is false. -/
theorem c6_aggregator_counterexample :
    getStrip brjpRowB.developer = "Beta" ∧
    pyStrGt (getStrip brjpRowB.last_period) (getStrip brjpRowA.last_period) = true ∧
    (alLookup ("P", "1 A St") ([brjpRowA, brjpRowB].foldl brjpStep [])).map
      (fun p => p.developer) = some "Alpha" ∧
    ("Alpha" : String) ≠ "Beta" :=
  ⟨by decide, by decide, by with_unfolding_all decide, by decide⟩

/-! ## C3: idempotence of the address normalizer

Generic list lemmas about prefixes, suffixes and infixes, then fixed-point
and invariant lemmas for each stage of `normalize_address`. -/

theorem prefRefl {α : Type} (l : List α) : l <+: l := ⟨[], by simp⟩

theorem suffRefl {α : Type} (l : List α) : l <:+ l := ⟨[], rfl⟩

theorem nilPref {α : Type} (l : List α) : ([] : List α) <+: l := ⟨l, rfl⟩

theorem nilInf {α : Type} (l : List α) : ([] : List α) <:+: l := ⟨[], l, by simp⟩

theorem isInfix_of_pref {α : Type} {t l : List α} (h : t <+: l) : t <:+: l := by
  obtain ⟨s, hs⟩ := h
  exact ⟨[], s, by simpa using hs⟩

theorem isInfix_of_suff {α : Type} {t l : List α} (h : t <:+ l) : t <:+: l := by
  obtain ⟨s, hs⟩ := h
  exact ⟨s, [], by simpa using hs⟩

theorem suffTrans {α : Type} {a b c : List α} (h1 : a <:+ b) (h2 : b <:+ c) : a <:+ c := by
  obtain ⟨s1, hs1⟩ := h1
  obtain ⟨s2, hs2⟩ := h2
  exact ⟨s2 ++ s1, by rw [List.append_assoc, hs1, hs2]⟩

theorem prefTrans {α : Type} {a b c : List α} (h1 : a <+: b) (h2 : b <+: c) : a <+: c := by
  obtain ⟨s1, hs1⟩ := h1
  obtain ⟨s2, hs2⟩ := h2
  exact ⟨s1 ++ s2, by rw [← List.append_assoc, hs1, hs2]⟩

theorem infTrans {α : Type} {a b c : List α} (h1 : a <:+: b) (h2 : b <:+: c) : a <:+: c := by
  obtain ⟨s1, u1, hs1⟩ := h1
  obtain ⟨s2, u2, hs2⟩ := h2
  refine ⟨s2 ++ s1, u1 ++ u2, ?_⟩
  rw [← hs2, ← hs1]
  simp [List.append_assoc]

theorem infConsOf {α : Type} {t l : List α} (a : α) (h : t <:+: l) : t <:+: a :: l := by
  obtain ⟨s, u, hs⟩ := h
  exact ⟨a :: s, u, by rw [List.cons_append, List.cons_append, hs]⟩

theorem prefSubset {α : Type} {t l : List α} (h : t <+: l) {a : α} (ha : a ∈ t) : a ∈ l := by
  obtain ⟨s, hs⟩ := h
  rw [← hs]
  exact List.mem_append.mpr (Or.inl ha)

theorem suffSubset {α : Type} {t l : List α} (h : t <:+ l) {a : α} (ha : a ∈ t) : a ∈ l := by
  obtain ⟨s, hs⟩ := h
  rw [← hs]
  exact List.mem_append.mpr (Or.inr ha)

theorem suffLen {α : Type} {t l : List α} (h : t <:+ l) : t.length ≤ l.length := by
  obtain ⟨s, hs⟩ := h
  rw [← hs]
  simp

theorem prefLen {α : Type} {t l : List α} (h : t <+: l) : t.length ≤ l.length := by
  obtain ⟨s, hs⟩ := h
  rw [← hs]
  simp

theorem eqNilOfInfNil {α : Type} {t : List α} (h : t <:+: ([] : List α)) : t = [] := by
  obtain ⟨s, u, hs⟩ := h
  have := List.append_eq_nil.mp (List.append_eq_nil.mp hs).1
  exact this.2

theorem prefConsHead {α : Type} {a b : α} {t l : List α} (h : a :: t <+: b :: l) :
    a = b ∧ t <+: l := by
  obtain ⟨s, hs⟩ := h
  rw [List.cons_append] at hs
  injection hs with h1 h2
  exact ⟨h1, s, h2⟩

theorem prefConsOf {α : Type} {t l : List α} (a : α) (h : t <+: l) : a :: t <+: a :: l := by
  obtain ⟨s, hs⟩ := h
  exact ⟨s, by rw [List.cons_append, hs]⟩

theorem singletonInfMem {α : Type} {a : α} {l : List α} (h : [a] <:+: l) : a ∈ l := by
  obtain ⟨s, u, hs⟩ := h
  rw [← hs]
  simp

theorem pref_append_cases {α : Type} {w u z : List α} (h : w <+: u ++ z) :
    w <+: u ∨ ∃ w2, w = u ++ w2 ∧ w2 <+: z := by
  induction u generalizing w with
  | nil => exact Or.inr ⟨w, rfl, h⟩
  | cons a u ih =>
    cases w with
    | nil => exact Or.inl (nilPref _)
    | cons b w' =>
      obtain ⟨s, hs⟩ := h
      rw [List.cons_append, List.cons_append] at hs
      injection hs with h1 h2
      subst h1
      rcases ih ⟨s, h2⟩ with hp | ⟨w2, hw, hz⟩
      · exact Or.inl (prefConsOf _ hp)
      · exact Or.inr ⟨w2, by rw [hw, List.cons_append], hz⟩

theorem inf_cons_cases {α : Type} {t : List α} {a : α} {l : List α}
    (h : t <:+: a :: l) : t <+: a :: l ∨ t <:+: l := by
  obtain ⟨s, u, hs⟩ := h
  cases s with
  | nil => exact Or.inl ⟨u, by simpa using hs⟩
  | cons b s' =>
    rw [List.cons_append, List.cons_append] at hs
    injection hs with h1 h2
    exact Or.inr ⟨s', u, h2⟩

theorem inf_append_split {α : Type} {t u z : List α} (h : t <:+: u ++ z) :
    t <:+: u ∨ t <:+: z ∨
      ∃ t1 t2, t = t1 ++ t2 ∧ t1 ≠ [] ∧ t2 ≠ [] ∧ t1 <:+ u ∧ t2 <+: z := by
  induction u generalizing t with
  | nil => exact Or.inr (Or.inl (by simpa using h))
  | cons a u ih =>
    rcases inf_cons_cases (by simpa using h) with hp | hi
    · rcases pref_append_cases (u := a :: u) (z := z) (by simpa using hp) with h1 | ⟨t2, ht, hz⟩
      · exact Or.inl (isInfix_of_pref h1)
      · by_cases h2 : t2 = []
        · subst h2
          rw [List.append_nil] at ht
          subst ht
          exact Or.inl ⟨[], [], by simp⟩
        · exact Or.inr (Or.inr ⟨a :: u, t2, ht, by simp, h2, suffRefl _, hz⟩)
    · rcases ih hi with h1 | h2 | ⟨t1, t2, ht, hn1, hn2, hs, hp2⟩
      · exact Or.inl (infConsOf a h1)
      · exact Or.inr (Or.inl h2)
      · exact Or.inr (Or.inr ⟨t1, t2, ht, hn1, hn2, suffTrans hs ⟨[a], rfl⟩, hp2⟩)

theorem dropPref_self_append (w z : List Char) : dropPref w (w ++ z) = some z := by
  induction w with
  | nil => simp [dropPref]
  | cons p ps ih => simp [dropPref, ih]

theorem dropPref_eq_append {w cs rem : List Char} (h : dropPref w cs = some rem) :
    cs = w ++ rem := by
  induction w generalizing cs with
  | nil =>
    simp only [dropPref, Option.some.injEq] at h
    simp [h]
  | cons p ps ih =>
    cases cs with
    | nil => simp [dropPref] at h
    | cons c cs' =>
      by_cases hpc : p = c
      · subst hpc
        simp only [dropPref, if_pos rfl] at h
        rw [List.cons_append, ih h]
      · simp [dropPref, hpc] at h

theorem pref_of_dropPref {w cs rem : List Char} (h : dropPref w cs = some rem) :
    w <+: cs := ⟨rem, (dropPref_eq_append h).symm⟩

theorem dropPref_append_right {w l rem : List Char} (h : dropPref w l = some rem)
    (z : List Char) : dropPref w (l ++ z) = some (rem ++ z) := by
  rw [dropPref_eq_append h, List.append_assoc, dropPref_self_append]

theorem dropWhile_head_cases (p : Char → Bool) (l : List Char) :
    l.dropWhile p = [] ∨ ∃ d t, l.dropWhile p = d :: t ∧ p d = false := by
  induction l with
  | nil => exact Or.inl rfl
  | cons c l ih =>
    by_cases h : p c
    · rw [List.dropWhile_cons, if_pos h]
      exact ih
    · rw [List.dropWhile_cons, if_neg h]
      exact Or.inr ⟨c, l, rfl, by simpa using h⟩

theorem dropWhile_suff (p : Char → Bool) (l : List Char) : l.dropWhile p <:+ l := by
  induction l with
  | nil => exact suffRefl _
  | cons c l ih =>
    by_cases h : p c
    · rw [List.dropWhile_cons, if_pos h]
      exact suffTrans ih ⟨[c], rfl⟩
    · rw [List.dropWhile_cons, if_neg h]

theorem takeWhile_all (p : Char → Bool) (l : List Char) :
    ∀ a ∈ l.takeWhile p, p a = true := by
  induction l with
  | nil => intro a ha; simp at ha
  | cons c l ih =>
    intro a ha
    by_cases h : p c
    · rw [List.takeWhile_cons, if_pos h] at ha
      rcases List.mem_cons.mp ha with rfl | ha
      · exact h
      · exact ih a ha
    · rw [List.takeWhile_cons, if_neg h] at ha
      simp at ha

theorem space_not_word {c : Char} (h : isPySpace c = true) : isWordChar c = false := by
  simp only [isPySpace, Bool.or_eq_true, decide_eq_true_eq] at h
  rcases h with ((((rfl | rfl) | rfl) | rfl) | rfl) | rfl <;> decide

theorem word_not_space {c : Char} (h : isWordChar c = true) : isPySpace c = false := by
  by_cases hs : isPySpace c = true
  · rw [space_not_word hs] at h
    exact absurd h (by simp)
  · simpa using hs

theorem punct_not_word {c : Char} (h : isPunctTok c = true) : isWordChar c = false := by
  simp only [isPunctTok, Bool.or_eq_true, decide_eq_true_eq] at h
  rcases h with (((rfl | rfl) | rfl) | rfl) | rfl <;> decide

theorem word_not_punct {c : Char} (h : isWordChar c = true) : isPunctTok c = false := by
  by_cases hp : isPunctTok c = true
  · rw [punct_not_word hp] at h
    exact absurd h (by simp)
  · simpa using hp

theorem iteFalseBool {a : Type} (x y : a) : (if (false : Bool) = true then x else y) = y := by
  simp

theorem strip_decomp (l : List Char) :
    ∃ ws, l.dropWhile isPySpace = pyStrip l ++ ws ∧ ∀ c ∈ ws, isPySpace c = true := by
  refine ⟨((l.dropWhile isPySpace).reverse.takeWhile isPySpace).reverse, ?_, ?_⟩
  · have h1 : (l.dropWhile isPySpace).reverse =
        (l.dropWhile isPySpace).reverse.takeWhile isPySpace ++
          (l.dropWhile isPySpace).reverse.dropWhile isPySpace :=
      (List.takeWhile_append_dropWhile _ _).symm
    calc l.dropWhile isPySpace
        = (l.dropWhile isPySpace).reverse.reverse := (List.reverse_reverse _).symm
      _ = ((l.dropWhile isPySpace).reverse.takeWhile isPySpace ++
            (l.dropWhile isPySpace).reverse.dropWhile isPySpace).reverse := by rw [← h1]
      _ = pyStrip l ++ ((l.dropWhile isPySpace).reverse.takeWhile isPySpace).reverse := by
            rw [List.reverse_append]
            rfl
  · intro c hc
    rw [List.mem_reverse] at hc
    exact takeWhile_all _ _ c hc

theorem pyStrip_pref_dropWhile (l : List Char) : pyStrip l <+: l.dropWhile isPySpace := by
  obtain ⟨ws, hdec, _⟩ := strip_decomp l
  exact ⟨ws, hdec.symm⟩

theorem pyStrip_subset {l : List Char} {a : Char} (h : a ∈ pyStrip l) : a ∈ l :=
  suffSubset (dropWhile_suff _ _) (prefSubset (pyStrip_pref_dropWhile l) h)

theorem pyStrip_inf (l : List Char) : pyStrip l <:+: l :=
  infTrans (isInfix_of_pref (pyStrip_pref_dropWhile l))
    (isInfix_of_suff (dropWhile_suff _ _))

theorem dropWhile_eq_self_of_head {p : Char → Bool} {c : Char} {t : List Char}
    (h : p c = false) : (c :: t).dropWhile p = c :: t := by
  rw [List.dropWhile_cons, if_neg (by simp [h])]

theorem pyStrip_idem (l : List Char) : pyStrip (pyStrip l) = pyStrip l := by
  rcases dropWhile_head_cases isPySpace ((l.dropWhile isPySpace).reverse) with h2 | ⟨e, t, h2, he⟩
  · have hz : pyStrip l = [] := by
      show ((l.dropWhile isPySpace).reverse.dropWhile isPySpace).reverse = []
      rw [h2]
      rfl
    rw [hz]
    rfl
  · -- the stripped list is `(e :: t).reverse`, its last element `e` is not a space
    have hrep : pyStrip l = (e :: t).reverse := by
      show ((l.dropWhile isPySpace).reverse.dropWhile isPySpace).reverse = _
      rw [h2]
    -- head of the stripped list is the head of `dropWhile` on `l`, not a space
    have hpref : pyStrip l <+: l.dropWhile isPySpace := pyStrip_pref_dropWhile l
    rcases hx : pyStrip l with _ | ⟨x, xs⟩
    · rw [hx] at hrep
      exact absurd hrep.symm (by simp)
    · have hxd : ∃ t2, l.dropWhile isPySpace = x :: t2 := by
        rw [hx] at hpref
        obtain ⟨s, hs⟩ := hpref
        exact ⟨xs ++ s, by rw [← hs, List.cons_append]⟩
      obtain ⟨t2, ht2⟩ := hxd
      have hxs : isPySpace x = false := by
        rcases dropWhile_head_cases isPySpace l with hl | ⟨d, t3, hl, hd⟩
        · rw [hl] at ht2
          exact absurd ht2 (by simp)
        · rw [hl] at ht2
          injection ht2 with h3 _
          rw [← h3]
          exact hd
      -- now compute `pyStrip (x :: xs)` where the head and the last are non-spaces
      show (((x :: xs).dropWhile isPySpace).reverse.dropWhile isPySpace).reverse = x :: xs
      rw [dropWhile_eq_self_of_head hxs]
      have hrev : (x :: xs).reverse = e :: t := by
        rw [← hx, hrep, List.reverse_reverse]
      rw [hrev, dropWhile_eq_self_of_head he, ← hrev, List.reverse_reverse]

theorem goodSpaces_append_left (l2 : List Char) :
    ∀ (l1 : List Char) (q : Bool), goodSpaces q (l1 ++ l2) = true → goodSpaces q l1 = true := by
  intro l1
  induction l1 with
  | nil => intro q _; rfl
  | cons c t ih =>
    intro q h
    rw [List.cons_append] at h
    by_cases hc : isPySpace c
    · simp only [goodSpaces, if_pos hc, Bool.and_eq_true] at h ⊢
      exact ⟨h.1, ih true h.2⟩
    · simp only [goodSpaces, if_neg hc] at h ⊢
      exact ih false h

theorem goodSpaces_nonspace_any {c : Char} (hc : isPySpace c = false) (t : List Char)
    (q q2 : Bool) : goodSpaces q (c :: t) = goodSpaces q2 (c :: t) := by
  simp only [goodSpaces, if_neg (by simp [hc] : ¬ isPySpace c = true)]

theorem goodSpaces_dropWhileFront {l : List Char} (h : goodSpaces false l = true) :
    goodSpaces false (l.dropWhile isPySpace) = true := by
  cases l with
  | nil => exact h
  | cons c rest =>
    by_cases hc : isPySpace c
    · simp only [goodSpaces, if_pos hc, Bool.and_eq_true] at h
      rw [List.dropWhile_cons, if_pos hc]
      cases rest with
      | nil => rfl
      | cons d r' =>
        have hd : isPySpace d = false := by
          by_cases hd2 : isPySpace d
          · have h2 := h.2
            simp only [goodSpaces, if_pos hd2] at h2
            simp at h2
          · simpa using hd2
        rw [dropWhile_eq_self_of_head hd]
        rw [goodSpaces_nonspace_any hd r' false true]
        exact h.2
    · rw [List.dropWhile_cons, if_neg hc]
      exact h

theorem goodSpaces_pyStrip {l : List Char} (h : goodSpaces false l = true) :
    goodSpaces false (pyStrip l) = true := by
  obtain ⟨ws, hdec, _⟩ := strip_decomp l
  have h1 := goodSpaces_dropWhileFront h
  rw [hdec] at h1
  exact goodSpaces_append_left ws (pyStrip l) false h1

theorem collapseGo_goodSpaces : ∀ (cs : List Char) (q : Bool),
    goodSpaces q (collapseGo q cs) = true := by
  intro cs
  induction cs with
  | nil => intro q; rfl
  | cons c rest ih =>
    intro q
    by_cases hc : isPySpace c
    · by_cases hq : q
      · subst hq
        simp only [collapseGo, if_pos hc, if_pos rfl]
        exact ih true
      · have hq2 : q = false := by simpa using hq
        subst hq2
        simp only [collapseGo, if_pos hc, iteFalseBool]
        simp only [goodSpaces, if_pos (by decide : isPySpace ' ' = true)]
        simp [ih true]
    · simp only [collapseGo, if_neg hc]
      simp only [goodSpaces, if_neg hc]
      exact ih false

theorem collapseGo_noop : ∀ (cs : List Char) (q : Bool),
    goodSpaces q cs = true → collapseGo q cs = cs := by
  intro cs
  induction cs with
  | nil => intro q _; rfl
  | cons c rest ih =>
    intro q h
    by_cases hc : isPySpace c
    · simp only [goodSpaces, if_pos hc, Bool.and_eq_true] at h
      obtain ⟨⟨hq, hsp⟩, hrest⟩ := h
      have hq2 : q = false := by
        cases q
        · rfl
        · simp at hq
      subst hq2
      have hsp2 : c = ' ' := by simpa using hsp
      subst hsp2
      simp only [collapseGo, if_pos hc, iteFalseBool]
      rw [ih true hrest]
    · simp only [collapseGo, if_neg hc]
      simp only [goodSpaces, if_neg hc] at h
      rw [ih false h]

theorem collapseGo_subset : ∀ (cs : List Char) (q : Bool) (a : Char),
    a ∈ collapseGo q cs → a ∈ cs ∨ a = ' ' := by
  intro cs
  induction cs with
  | nil => intro q a h; exact absurd h (by simp [collapseGo])
  | cons c rest ih =>
    intro q a h
    by_cases hc : isPySpace c
    · by_cases hq : q
      · subst hq
        simp only [collapseGo, if_pos hc, if_pos rfl] at h
        rcases ih true a h with h2 | h2
        · exact Or.inl (List.mem_cons_of_mem _ h2)
        · exact Or.inr h2
      · have hq2 : q = false := by simpa using hq
        subst hq2
        simp only [collapseGo, if_pos hc, iteFalseBool] at h
        rcases List.mem_cons.mp h with rfl | h2
        · exact Or.inr rfl
        · rcases ih true a h2 with h3 | h3
          · exact Or.inl (List.mem_cons_of_mem _ h3)
          · exact Or.inr h3
    · simp only [collapseGo, if_neg hc] at h
      rcases List.mem_cons.mp h with rfl | h2
      · exact Or.inl (List.mem_cons_self _ _)
      · rcases ih false a h2 with h3 | h3
        · exact Or.inl (List.mem_cons_of_mem _ h3)
        · exact Or.inr h3

theorem collapseGo_pref_reflect : ∀ (cs t : List Char), (∀ c ∈ t, isPySpace c = false) →
    t <+: collapseGo false cs → t <+: cs := by
  intro cs
  induction cs with
  | nil =>
    intro t _ h
    cases t with
    | nil => exact nilPref _
    | cons a t' =>
      obtain ⟨s, hs⟩ := h
      exact absurd hs (by simp [collapseGo])
  | cons e z ih =>
    intro t ht h
    by_cases he : isPySpace e
    · simp only [collapseGo, if_pos he, iteFalseBool] at h
      cases t with
      | nil => exact nilPref _
      | cons a t' =>
        obtain ⟨ha, _⟩ := prefConsHead h
        subst ha
        exact absurd (ht _ (List.mem_cons_self _ _)) (by decide)
    · simp only [collapseGo, if_neg he] at h
      cases t with
      | nil => exact nilPref _
      | cons a t' =>
        obtain ⟨ha, h2⟩ := prefConsHead h
        subst ha
        exact prefConsOf _ (ih t' (fun c hc => ht c (List.mem_cons_of_mem _ hc)) h2)

theorem collapseGo_append_nonspace : ∀ (u z : List Char), (∀ c ∈ u, isPySpace c = false) →
    collapseGo false (u ++ z) = u ++ collapseGo false z := by
  intro u
  induction u with
  | nil => intro z _; rfl
  | cons a u' ih =>
    intro z hu
    rw [List.cons_append]
    have ha : isPySpace a = false := hu _ (List.mem_cons_self _ _)
    simp only [collapseGo, if_neg (by simp [ha] : ¬ isPySpace a = true)]
    rw [ih z (fun c hc => hu c (List.mem_cons_of_mem _ hc)), List.cons_append]

theorem collapseGo_inf_reflect {t : List Char} (htne : t ≠ [])
    (ht : ∀ c ∈ t, isPySpace c = false) :
    ∀ (cs : List Char) (q : Bool), t <:+: collapseGo q cs → t <:+: cs := by
  intro cs
  induction cs with
  | nil =>
    intro q h
    simp only [collapseGo] at h
    exact absurd (eqNilOfInfNil h) htne
  | cons c rest ih =>
    intro q h
    by_cases hc : isPySpace c
    · by_cases hq : q
      · subst hq
        simp only [collapseGo, if_pos hc, if_pos rfl] at h
        exact infConsOf c (ih true h)
      · have hq2 : q = false := by simpa using hq
        subst hq2
        simp only [collapseGo, if_pos hc, iteFalseBool] at h
        rcases inf_cons_cases h with hp | hi
        · cases t with
          | nil => exact absurd rfl htne
          | cons a t' =>
            obtain ⟨ha, _⟩ := prefConsHead hp
            subst ha
            exact absurd (ht _ (List.mem_cons_self _ _)) (by decide)
        · exact infConsOf c (ih true hi)
    · simp only [collapseGo, if_neg hc] at h
      rcases inf_cons_cases h with hp | hi
      · cases t with
        | nil => exact absurd rfl htne
        | cons a t' =>
          obtain ⟨ha, h2⟩ := prefConsHead hp
          subst ha
          exact isInfix_of_pref (prefConsOf _
            (collapseGo_pref_reflect rest t' (fun c2 hc2 => ht c2 (List.mem_cons_of_mem _ hc2)) h2))
      · exact infConsOf c (ih false hi)

theorem depunct_cons (c : Char) (rest : List Char) :
    depunct (c :: rest) = (if isPunctTok c then ' ' else c) :: depunct rest := by
  simp [depunct]

theorem depunct_subset {cs : List Char} {a : Char} (h : a ∈ depunct cs) :
    a = ' ' ∨ a ∈ cs := by
  rw [depunct, List.mem_map] at h
  obtain ⟨c, hc, hac⟩ := h
  by_cases hp : isPunctTok c
  · rw [if_pos hp] at hac
    exact Or.inl hac.symm
  · rw [if_neg hp] at hac
    subst hac
    exact Or.inr hc

theorem depunct_no_punct (cs : List Char) : ∀ a ∈ depunct cs, isPunctTok a = false := by
  intro a ha
  rw [depunct, List.mem_map] at ha
  obtain ⟨c, _, hac⟩ := ha
  by_cases hp : isPunctTok c
  · rw [if_pos hp] at hac
    rw [← hac]
    decide
  · rw [if_neg hp] at hac
    subst hac
    simpa using hp

theorem depunct_no_hash (cs : List Char) : '#' ∉ depunct cs := by
  intro h
  have := depunct_no_punct cs '#' h
  exact absurd this (by decide)

theorem depunct_noop {cs : List Char} (h : ∀ a ∈ cs, isPunctTok a = false) :
    depunct cs = cs := by
  induction cs with
  | nil => rfl
  | cons c rest ih =>
    rw [depunct_cons, if_neg (by simp [h c (List.mem_cons_self _ _)]),
      ih (fun a ha => h a (List.mem_cons_of_mem _ ha))]

theorem dChar_fix_word {c : Char} (h : isWordChar c = true) :
    (if isPunctTok c then ' ' else c) = c := by
  rw [if_neg (by simp [word_not_punct h])]

theorem wc_dChar (c : Char) :
    isWordChar (if isPunctTok c then ' ' else c) = isWordChar c := by
  by_cases hp : isPunctTok c
  · rw [if_pos hp, punct_not_word hp]
    decide
  · rw [if_neg hp]

theorem dropPref_depunct {v : List Char} (hv : ∀ c ∈ v, isWordChar c = true) :
    ∀ cs, dropPref v (depunct cs) = (dropPref v cs).map depunct := by
  induction v with
  | nil => intro cs; simp [dropPref]
  | cons p ps ih =>
    intro cs
    cases cs with
    | nil => rfl
    | cons c cs' =>
      rw [depunct_cons]
      by_cases hpc : p = c
      · subst hpc
        rw [dChar_fix_word (hv p (List.mem_cons_self _ _))]
        simp only [dropPref, if_pos rfl]
        exact ih (fun c2 hc2 => hv c2 (List.mem_cons_of_mem _ hc2)) cs'
      · have hpd : p ≠ (if isPunctTok c then ' ' else c) := by
          by_cases hp2 : isPunctTok c
          · rw [if_pos hp2]
            intro heq
            have := hv p (List.mem_cons_self _ _)
            rw [heq] at this
            simp [isWordChar] at this
          · rw [if_neg hp2]
            exact hpc
        simp only [dropPref, if_neg hpd, if_neg hpc]
        rfl

theorem depunct_pref_reflect {t : List Char} (ht : ∀ c ∈ t, isWordChar c = true)
    {cs : List Char} (h : t <+: depunct cs) : t <+: cs := by
  obtain ⟨s, hs⟩ := h
  have h1 : dropPref t (depunct cs) = some s := by
    rw [← hs, dropPref_self_append]
  rw [dropPref_depunct ht] at h1
  rcases h2 : dropPref t cs with _ | rem
  · rw [h2] at h1
    exact absurd h1 (by simp)
  · exact pref_of_dropPref h2

theorem depunct_inf_reflect {t : List Char} (ht : ∀ c ∈ t, isWordChar c = true) :
    ∀ cs, t <:+: depunct cs → t <:+: cs := by
  intro cs
  induction cs with
  | nil =>
    intro h
    simp only [depunct, List.map_nil] at h
    rw [eqNilOfInfNil h]
  | cons c rest ih =>
    intro h
    rw [depunct_cons] at h
    rcases inf_cons_cases h with hp | hi
    · cases t with
      | nil => exact nilInf _
      | cons a t' =>
        obtain ⟨ha, h2⟩ := prefConsHead hp
        have haw : isWordChar a = true := ht a (List.mem_cons_self _ _)
        have hac : a = c := by
          by_cases hp2 : isPunctTok c
          · rw [if_pos hp2] at ha
            rw [ha] at haw
            simp [isWordChar] at haw
          · rwa [if_neg hp2] at ha
        subst hac
        exact isInfix_of_pref (prefConsOf _
          (depunct_pref_reflect (fun c2 hc2 => ht c2 (List.mem_cons_of_mem _ hc2)) h2))
    · exact infConsOf c (ih hi)

theorem tryUnitTok_some {cs r2 : List Char} (h : tryUnitTok cs = some r2) :
    ∃ t ∈ unitToks, dropPref t cs = some r2 := by
  unfold tryUnitTok at h
  rcases h1 : dropPref [ 'U', 'N', 'I', 'T' ] cs with _ | r
  · rw [h1, Option.none_orElse] at h
    rcases h2 : dropPref [ 'S', 'U', 'I', 'T', 'E' ] cs with _ | r
    · rw [h2, Option.none_orElse] at h
      rcases h3 : dropPref [ 'S', 'T', 'E' ] cs with _ | r
      · rw [h3, Option.none_orElse] at h
        rcases h4 : dropPref [ 'A', 'P', 'T' ] cs with _ | r
        · rw [h4, Option.none_orElse] at h
          exact ⟨[ '#' ], by simp [unitToks], h⟩
        · rw [h4, Option.some_orElse] at h
          exact ⟨[ 'A', 'P', 'T' ], by simp [unitToks], h4.trans h⟩
      · rw [h3, Option.some_orElse] at h
        exact ⟨[ 'S', 'T', 'E' ], by simp [unitToks], h3.trans h⟩
    · rw [h2, Option.some_orElse] at h
      exact ⟨[ 'S', 'U', 'I', 'T', 'E' ], by simp [unitToks], h2.trans h⟩
  · rw [h1, Option.some_orElse] at h
    exact ⟨[ 'U', 'N', 'I', 'T' ], by simp [unitToks], h1.trans h⟩

theorem tok_pref_tryUnitTok {t cs : List Char} (ht : t ∈ unitToks) (h : t <+: cs) :
    ∃ r2, tryUnitTok cs = some r2 := by
  obtain ⟨s, hs⟩ := h
  subst hs
  simp only [unitToks, List.mem_cons, List.not_mem_nil, or_false] at ht
  rcases ht with rfl | rfl | rfl | rfl | rfl <;>
    exact ⟨s, by simp [tryUnitTok, dropPref, Option.some_orElse, Option.none_orElse]⟩

theorem unitMatchAt_some {cs rem : List Char} (h : unitMatchAt cs = some rem) :
    rem <:+ cs ∧ rem.length < cs.length := by
  unfold unitMatchAt at h
  rcases htk : tryUnitTok (cs.dropWhile isPySpace) with _ | r2
  · rw [htk] at h
    exact absurd h (by simp)
  · rw [htk] at h
    injection h with h2
    obtain ⟨t, htmem, hdp⟩ := tryUnitTok_some htk
    have htne : t.length ≠ 0 := by
      simp only [unitToks, List.mem_cons, List.not_mem_nil, or_false] at htmem
      rcases htmem with rfl | rfl | rfl | rfl | rfl <;> simp
    have hr2 : r2 <:+ cs.dropWhile isPySpace := by
      rw [dropPref_eq_append hdp]
      exact ⟨t, rfl⟩
    have hlen : r2.length < (cs.dropWhile isPySpace).length := by
      have := congrArg List.length (dropPref_eq_append hdp)
      rw [List.length_append] at this
      omega
    have hsuffix : rem <:+ r2 := by
      rw [← h2]
      exact suffTrans (dropWhile_suff _ _) (dropWhile_suff _ _)
    constructor
    · exact suffTrans hsuffix (suffTrans hr2 (dropWhile_suff _ _))
    · have h3 := suffLen hsuffix
      have h4 := suffLen (dropWhile_suff isPySpace cs)
      omega

theorem unitMatchAt_spaceHeaded {cs rem : List Char} (h : unitMatchAt cs = some rem) :
    rem = [] ∨ ∃ d t, rem = d :: t ∧ isPySpace d = true := by
  unfold unitMatchAt at h
  rcases htk : tryUnitTok (cs.dropWhile isPySpace) with _ | r2
  · rw [htk] at h
    exact absurd h (by simp)
  · rw [htk] at h
    injection h with h2
    rcases dropWhile_head_cases (fun c => !isPySpace c) (r2.dropWhile isPySpace) with h3 | ⟨d, t, h3, hd⟩
    · rw [← h2, h3]
      exact Or.inl rfl
    · rw [← h2, h3]
      exact Or.inr ⟨d, t, rfl, by simpa using hd⟩

theorem unitMatchAt_none_of_noTok {cs : List Char}
    (h : ∀ t ∈ unitToks, ¬ t <:+: cs) : unitMatchAt cs = none := by
  unfold unitMatchAt
  rcases htk : tryUnitTok (cs.dropWhile isPySpace) with _ | r2
  · rfl
  · obtain ⟨t, htmem, hdp⟩ := tryUnitTok_some htk
    exact absurd (infTrans (isInfix_of_pref (pref_of_dropPref hdp))
      (isInfix_of_suff (dropWhile_suff _ _))) (h t htmem)

theorem subUnitGo_nil (fuel : Nat) : subUnitGo fuel [] = [] := by
  cases fuel <;> rfl

theorem subUnitGo_spaceHeaded :
    ∀ (fuel : Nat) (cs : List Char),
      (cs = [] ∨ ∃ d t, cs = d :: t ∧ isPySpace d = true) →
      (subUnitGo fuel cs = [] ∨ ∃ d t, subUnitGo fuel cs = d :: t ∧ isPySpace d = true) := by
  intro fuel
  induction fuel with
  | zero => intro cs h; simpa [subUnitGo] using h
  | succ f ih =>
    intro cs h
    rcases h with rfl | ⟨d, t, rfl, hd⟩
    · exact Or.inl rfl
    · rcases hm : unitMatchAt (d :: t) with _ | rem
      · simp only [subUnitGo, hm]
        exact Or.inr ⟨d, subUnitGo f t, rfl, hd⟩
      · simp only [subUnitGo, hm]
        exact ih rem (unitMatchAt_spaceHeaded hm)

theorem subUnitGo_pref_reflect :
    ∀ (fuel : Nat) (t cs : List Char), (∀ c ∈ t, isPySpace c = false) →
      t <+: subUnitGo fuel cs → t <+: cs := by
  intro fuel
  induction fuel with
  | zero => intro t cs _ h; simpa [subUnitGo] using h
  | succ f ih =>
    intro t cs ht h
    cases cs with
    | nil =>
      rw [subUnitGo_nil] at h
      cases t with
      | nil => exact nilPref _
      | cons a t' =>
        obtain ⟨s, hs⟩ := h
        exact absurd hs (by simp)
    | cons c rest =>
      rcases hm : unitMatchAt (c :: rest) with _ | rem
      · simp only [subUnitGo, hm] at h
        cases t with
        | nil => exact nilPref _
        | cons a t' =>
          obtain ⟨ha, h2⟩ := prefConsHead h
          subst ha
          exact prefConsOf _ (ih t' rest (fun c2 hc2 => ht c2 (List.mem_cons_of_mem _ hc2)) h2)
      · simp only [subUnitGo, hm] at h
        have hsh := subUnitGo_spaceHeaded f rem (unitMatchAt_spaceHeaded hm)
        cases t with
        | nil => exact nilPref _
        | cons a t' =>
          rcases hsh with h3 | ⟨d, t2, h3, hd⟩
          · rw [h3] at h
            obtain ⟨s, hs⟩ := h
            exact absurd hs (by simp)
          · rw [h3] at h
            obtain ⟨ha, _⟩ := prefConsHead h
            subst ha
            rw [ht a (List.mem_cons_self _ _)] at hd
            exact absurd hd (by simp)

theorem subUnitGo_noTok {t : List Char} (ht : t ∈ unitToks) :
    ∀ (fuel : Nat) (cs : List Char), cs.length ≤ fuel → ¬ t <:+: subUnitGo fuel cs := by
  have htprops : t ≠ [] ∧ ∀ c ∈ t, isPySpace c = false := by
    simp only [unitToks, List.mem_cons, List.not_mem_nil, or_false] at ht
    rcases ht with rfl | rfl | rfl | rfl | rfl <;> exact ⟨by simp, by decide⟩
  intro fuel
  induction fuel with
  | zero =>
    intro cs hlen hinf
    have : cs = [] := List.length_eq_zero.mp (Nat.le_zero.mp hlen)
    subst this
    exact htprops.1 (eqNilOfInfNil (by simpa [subUnitGo] using hinf))
  | succ f ih =>
    intro cs hlen hinf
    cases cs with
    | nil =>
      rw [subUnitGo_nil] at hinf
      exact htprops.1 (eqNilOfInfNil hinf)
    | cons c rest =>
      rcases hm : unitMatchAt (c :: rest) with _ | rem
      · simp only [subUnitGo, hm] at hinf
        rcases inf_cons_cases hinf with hp | hi
        · -- a prefix occurrence reflects to the input and contradicts the failed match
          cases t with
          | nil => exact htprops.1 rfl
          | cons a t' =>
            obtain ⟨ha, h2⟩ := prefConsHead hp
            subst ha
            have h3 : t' <+: rest :=
              subUnitGo_pref_reflect f t' rest
                (fun c2 hc2 => htprops.2 c2 (List.mem_cons_of_mem _ hc2)) h2
            have h4 : (a :: t') <+: (a :: rest) := prefConsOf _ h3
            have h5 : (a :: rest).dropWhile isPySpace = a :: rest :=
              dropWhile_eq_self_of_head (htprops.2 a (List.mem_cons_self _ _))
            obtain ⟨r2, hr2⟩ := tok_pref_tryUnitTok ht h4
            rw [unitMatchAt, h5, hr2] at hm
            exact absurd hm (by simp)
        · exact ih rest (by simpa using Nat.le_of_succ_le_succ (by simpa using hlen)) hi
      · simp only [subUnitGo, hm] at hinf
        have hlt := (unitMatchAt_some hm).2
        exact ih rem (by simp only [List.length_cons] at hlen; simp at hlt; omega) hinf

theorem subUnitGo_noop {cs : List Char} (h : ∀ t ∈ unitToks, ¬ t <:+: cs) :
    ∀ fuel, subUnitGo fuel cs = cs := by
  induction cs with
  | nil => intro fuel; exact subUnitGo_nil fuel
  | cons c rest ih =>
    intro fuel
    cases fuel with
    | zero => rfl
    | succ f =>
      have hm : unitMatchAt (c :: rest) = none := unitMatchAt_none_of_noTok h
      simp only [subUnitGo, hm]
      rw [ih (fun t htm hinf => h t htm (infConsOf c hinf)) f]

theorem subUnitGo_subset :
    ∀ (fuel : Nat) (cs : List Char) (a : Char), a ∈ subUnitGo fuel cs → a ∈ cs := by
  intro fuel
  induction fuel with
  | zero => intro cs a h; simpa [subUnitGo] using h
  | succ f ih =>
    intro cs a h
    cases cs with
    | nil => rw [subUnitGo_nil] at h; exact h
    | cons c rest =>
      rcases hm : unitMatchAt (c :: rest) with _ | rem
      · simp only [subUnitGo, hm] at h
        rcases List.mem_cons.mp h with rfl | h2
        · exact List.mem_cons_self _ _
        · exact List.mem_cons_of_mem _ (ih rest a h2)
      · simp only [subUnitGo, hm] at h
        exact suffSubset (unitMatchAt_some hm).1 (ih rem a h)

theorem wordBMatch_true (w cs : List Char) : wordBMatch w true cs = none := by
  simp [wordBMatch]

theorem wordBMatch_false {w cs : List Char} : wordBMatch w false cs =
    match dropPref w cs with
    | none => none
    | some rem =>
      match rem with
      | [] => some rem
      | d :: _ => if isWordChar d then none else some rem := by
  simp [wordBMatch]

theorem wordBMatch_some {w : List Char} {prev : Bool} {cs rem : List Char}
    (h : wordBMatch w prev cs = some rem) :
    prev = false ∧ cs = w ++ rem ∧
      (rem = [] ∨ ∃ d t, rem = d :: t ∧ isWordChar d = false) := by
  cases prev
  · rw [wordBMatch_false] at h
    rcases hd : dropPref w cs with _ | rem0
    · rw [hd] at h
      exact absurd h (by simp)
    · rw [hd] at h
      rcases rem0 with _ | ⟨d, t⟩
      · injection h with h2
        subst h2
        exact ⟨rfl, dropPref_eq_append hd, Or.inl rfl⟩
      · by_cases hw : isWordChar d
        · simp only [if_pos hw] at h
          exact absurd h (by simp)
        · simp only [if_neg hw] at h
          injection h with h2
          subst h2
          exact ⟨rfl, dropPref_eq_append hd, Or.inr ⟨d, t, rfl, by simpa using hw⟩⟩
  · rw [wordBMatch_true] at h
    exact absurd h (by simp)

theorem wordBMatch_none_of_dropPref_none {w cs : List Char}
    (h : dropPref w cs = none) : wordBMatch w false cs = none := by
  rw [wordBMatch_false, h]

theorem substWordGo_nil (w r : List Char) (fuel : Nat) (prev : Bool) :
    substWordGo w r fuel prev [] = [] := by
  cases fuel <;> rfl

theorem substWordGo_true_cons (w r : List Char) (f : Nat) (d : Char) (t : List Char) :
    ∃ t2, substWordGo w r f true (d :: t) = d :: t2 := by
  cases f with
  | zero => exact ⟨t, rfl⟩
  | succ f2 =>
    refine ⟨substWordGo w r f2 (isWordChar d) t, ?_⟩
    simp only [substWordGo, wordBMatch_true]

theorem substWordGo_pref_reflect (w r : List Char) :
    ∀ (fuel : Nat) (t cs : List Char), (∀ c ∈ t, isWordChar c = true) →
      t <+: substWordGo w r fuel true cs → t <+: cs := by
  intro fuel
  induction fuel with
  | zero => intro t cs _ h; simpa [substWordGo] using h
  | succ f ih =>
    intro t cs ht h
    cases cs with
    | nil =>
      rw [substWordGo_nil] at h
      cases t with
      | nil => exact nilPref _
      | cons a t' =>
        obtain ⟨s, hs⟩ := h
        exact absurd hs (by simp)
    | cons d z =>
      simp only [substWordGo, wordBMatch_true] at h
      cases t with
      | nil => exact nilPref _
      | cons a t' =>
        obtain ⟨ha, h2⟩ := prefConsHead h
        subst ha
        rw [ht a (List.mem_cons_self _ _)] at h2
        exact prefConsOf _ (ih t' z (fun c2 hc2 => ht c2 (List.mem_cons_of_mem _ hc2)) h2)

theorem substWordGo_append_word (w r : List Char) :
    ∀ (u : List Char), (∀ c ∈ u, isWordChar c = true) →
      ∀ (fuel : Nat) (z : List Char),
      ∃ f2, substWordGo w r fuel true (u ++ z) = u ++ substWordGo w r f2 true z := by
  intro u
  induction u with
  | nil => intro _ fuel z; exact ⟨fuel, rfl⟩
  | cons a u' ih =>
    intro hu fuel z
    cases fuel with
    | zero => exact ⟨0, rfl⟩
    | succ f =>
      rw [List.cons_append]
      simp only [substWordGo, wordBMatch_true]
      rw [hu a (List.mem_cons_self _ _)]
      obtain ⟨f2, hf2⟩ := ih (fun c hc => hu c (List.mem_cons_of_mem _ hc)) f z
      exact ⟨f2, by rw [hf2, List.cons_append]⟩

theorem hasWordOcc_cons (w : List Char) (prev : Bool) (c : Char) (rest : List Char) :
    hasWordOcc w prev (c :: rest) =
      ((wordBMatch w prev (c :: rest)).isSome || hasWordOcc w (isWordChar c) rest) := rfl

theorem hasWordOcc_append_word (w : List Char) :
    ∀ (u : List Char), u ≠ [] → (∀ c ∈ u, isWordChar c = true) →
    ∀ (z : List Char) (p : Bool),
      hasWordOcc w p (u ++ z) =
        ((wordBMatch w p (u ++ z)).isSome || hasWordOcc w true z) := by
  intro u
  induction u with
  | nil => intro h; exact absurd rfl h
  | cons a u' ih =>
    intro _ hu z p
    cases u' with
    | nil =>
      rw [List.cons_append, List.nil_append, hasWordOcc_cons,
        hu a (List.mem_cons_self _ _)]
    | cons b u'' =>
      rw [List.cons_append, hasWordOcc_cons, hu a (List.mem_cons_self _ _),
        ih (by simp) (fun c hc => hu c (List.mem_cons_of_mem _ hc)) z true,
        wordBMatch_true, ← List.cons_append]
      simp only [Option.isSome_none, Bool.false_or]

theorem substWordGo_noop (w r : List Char) :
    ∀ (fuel : Nat) (prev : Bool) (cs : List Char), hasWordOcc w prev cs = false →
      substWordGo w r fuel prev cs = cs := by
  intro fuel
  induction fuel with
  | zero => intro prev cs _; rfl
  | succ f ih =>
    intro prev cs h
    cases cs with
    | nil => rw [substWordGo_nil]
    | cons c rest =>
      rw [hasWordOcc_cons, Bool.or_eq_false_iff] at h
      have hm : wordBMatch w prev (c :: rest) = none := by
        rcases hm2 : wordBMatch w prev (c :: rest) with _ | rem
        · rfl
        · rw [hm2] at h
          exact absurd h.1 (by simp)
      simp only [substWordGo, hm]
      rw [ih (isWordChar c) rest h.2]

theorem substWordGo_subset (w r : List Char) :
    ∀ (fuel : Nat) (prev : Bool) (cs : List Char) (a : Char),
      a ∈ substWordGo w r fuel prev cs → a ∈ cs ∨ a ∈ r := by
  intro fuel
  induction fuel with
  | zero => intro _ cs a h; exact Or.inl (by simpa [substWordGo] using h)
  | succ f ih =>
    intro prev cs a h
    cases cs with
    | nil =>
      rw [substWordGo_nil] at h
      exact absurd h (by simp)
    | cons c rest =>
      rcases hm : wordBMatch w prev (c :: rest) with _ | rem
      · simp only [substWordGo, hm] at h
        rcases List.mem_cons.mp h with rfl | h2
        · exact Or.inl (List.mem_cons_self _ _)
        · rcases ih (isWordChar c) rest a h2 with h3 | h3
          · exact Or.inl (List.mem_cons_of_mem _ h3)
          · exact Or.inr h3
      · simp only [substWordGo, hm] at h
        rcases List.mem_append.mp h with h2 | h2
        · exact Or.inr h2
        · rcases ih true rem a h2 with h3 | h3
          · obtain ⟨_, hcs, _⟩ := wordBMatch_some hm
            rw [hcs]
            exact Or.inl (List.mem_append.mpr (Or.inr h3))
          · exact Or.inr h3

theorem substWordGo_inf_reflect (w r : List Char) :
    ∀ (fuel : Nat) (t cs : List Char) (prev : Bool), (∀ c ∈ t, isWordChar c = true) →
      t <:+: substWordGo w r fuel prev cs → t <:+: cs ∨ t <:+: r := by
  intro fuel
  induction fuel with
  | zero => intro t cs _ _ h; exact Or.inl (by simpa [substWordGo] using h)
  | succ f ih =>
    intro t cs prev ht h
    cases cs with
    | nil =>
      rw [substWordGo_nil] at h
      rw [eqNilOfInfNil h]
      exact Or.inl (nilInf _)
    | cons c rest =>
      rcases hm : wordBMatch w prev (c :: rest) with _ | rem
      · simp only [substWordGo, hm] at h
        rcases inf_cons_cases h with hp | hi
        · cases t with
          | nil => exact Or.inl (nilInf _)
          | cons a t' =>
            obtain ⟨ha, h2⟩ := prefConsHead hp
            subst ha
            rw [ht a (List.mem_cons_self _ _)] at h2
            have h3 := substWordGo_pref_reflect w r f t' rest
              (fun c2 hc2 => ht c2 (List.mem_cons_of_mem _ hc2)) h2
            exact Or.inl (isInfix_of_pref (prefConsOf _ h3))
        · rcases ih t rest (isWordChar c) ht hi with h3 | h3
          · exact Or.inl (infConsOf c h3)
          · exact Or.inr h3
      · simp only [substWordGo, hm] at h
        obtain ⟨hprev, hcs, hbound⟩ := wordBMatch_some hm
        rcases inf_append_split h with h1 | h1 | ⟨t1, t2, ht12, hn1, hn2, hs1, hp2⟩
        · exact Or.inr h1
        · rcases ih t rem true ht h1 with h3 | h3
          · exact Or.inl (infTrans h3 (isInfix_of_suff ⟨w, hcs.symm⟩))
          · exact Or.inr h3
        · rcases hbound with rfl | ⟨d, t3, rfl, hd⟩
          · rw [substWordGo_nil] at hp2
            obtain ⟨s, hs⟩ := hp2
            exact absurd (List.append_eq_nil.mp hs).1 hn2
          · obtain ⟨t4, ht4⟩ := substWordGo_true_cons w r f d t3
            rw [ht4] at hp2
            cases t2 with
            | nil => exact absurd rfl hn2
            | cons b t5 =>
              obtain ⟨hb, _⟩ := prefConsHead hp2
              subst hb
              have hbw : isWordChar b = true := ht b (by rw [ht12]; exact List.mem_append.mpr (Or.inr (List.mem_cons_self _ _)))
              rw [hbw] at hd
              exact absurd hd (by simp)

theorem hasWordOcc_nil (w : List Char) (prev : Bool) : hasWordOcc w prev [] = false := rfl

theorem wordBMatch_lift_none (w r v : List Char) (hv : v ≠ [])
    (hvall : ∀ c ∈ v, isWordChar c = true) (f : Nat) (c : Char) (rest : List Char)
    (hin : wordBMatch v false (c :: rest) = none) :
    wordBMatch v false (c :: substWordGo w r f (isWordChar c) rest) = none := by
  rcases hdp : dropPref v (c :: substWordGo w r f (isWordChar c) rest) with _ | rem2
  · exact wordBMatch_none_of_dropPref_none hdp
  · cases v with
    | nil => exact absurd rfl hv
    | cons b v' =>
      have hbc : b = c ∧ dropPref v' (substWordGo w r f (isWordChar c) rest) = some rem2 := by
        by_cases h2 : b = c
        · subst h2
          simp only [dropPref, if_pos rfl] at hdp
          exact ⟨rfl, hdp⟩
        · simp only [dropPref, if_neg h2] at hdp
          exact absurd hdp (by simp)
      obtain ⟨rfl, hdp2⟩ := hbc
      have hwc : isWordChar b = true := hvall b (List.mem_cons_self _ _)
      rw [hwc] at hdp2
      have hv'w : ∀ c2 ∈ v', isWordChar c2 = true :=
        fun c2 hc2 => hvall c2 (List.mem_cons_of_mem _ hc2)
      have hpref2 : v' <+: rest :=
        substWordGo_pref_reflect w r f v' rest hv'w (pref_of_dropPref hdp2)
      obtain ⟨s, hs⟩ := hpref2
      have hdpin : dropPref (b :: v') (b :: rest) = some s := by
        have h4 : (b :: v') ++ s = b :: rest := by rw [List.cons_append, hs]
        rw [← h4]
        exact dropPref_self_append _ _
      rcases s with _ | ⟨d2, t2⟩
      · have h5 : wordBMatch (b :: v') false (b :: rest) = some [] := by
          rw [wordBMatch_false, hdpin]
        exact absurd (hin.symm.trans h5) (by simp)
      · by_cases hd2 : isWordChar d2
        · obtain ⟨f2, hf2⟩ := substWordGo_append_word w r v' hv'w f (d2 :: t2)
          obtain ⟨t4, ht4⟩ := substWordGo_true_cons w r f2 d2 t2
          have hout : substWordGo w r f true rest = v' ++ (d2 :: t4) := by
            rw [← hs, hf2, ht4]
          rw [hout, dropPref_self_append] at hdp2
          injection hdp2 with h5
          rw [wordBMatch_false, hdp, ← h5]
          simp only [if_pos hd2]
        · have h5 : wordBMatch (b :: v') false (b :: rest) = some (d2 :: t2) := by
            rw [wordBMatch_false, hdpin]
            simp only [if_neg hd2]
          exact absurd (hin.symm.trans h5) (by simp)

theorem substWordGo_kills (w r : List Char) (hw : w ≠ [])
    (hwall : ∀ c ∈ w, isWordChar c = true) (hr : r ≠ [])
    (hrall : ∀ c ∈ r, isWordChar c = true) (hlen : r.length < w.length) :
    ∀ (fuel : Nat) (cs : List Char) (prev : Bool), cs.length ≤ fuel →
      hasWordOcc w prev (substWordGo w r fuel prev cs) = false := by
  intro fuel
  induction fuel with
  | zero =>
    intro cs prev hlen2
    have h0 : cs = [] := List.length_eq_zero.mp (Nat.le_zero.mp hlen2)
    subst h0
    rw [substWordGo_nil, hasWordOcc_nil]
  | succ f ih =>
    intro cs prev hlen2
    cases cs with
    | nil => rw [substWordGo_nil, hasWordOcc_nil]
    | cons c rest =>
      rcases hm : wordBMatch w prev (c :: rest) with _ | rem
      · simp only [substWordGo, hm]
        rw [hasWordOcc_cons, Bool.or_eq_false_iff]
        constructor
        · cases prev with
          | true => rw [wordBMatch_true]; rfl
          | false =>
            rw [wordBMatch_lift_none w r w hw hwall f c rest hm]
            rfl
        · exact ih rest (isWordChar c) (by simp only [List.length_cons] at hlen2; omega)
      · obtain ⟨hprev, hcs, hbound⟩ := wordBMatch_some hm
        subst hprev
        simp only [substWordGo, hm]
        have hwpos : 0 < w.length := List.length_pos.mpr hw
        have hremlen : rem.length ≤ f := by
          have h4 := congrArg List.length hcs
          simp only [List.length_cons, List.length_append] at h4
          simp only [List.length_cons] at hlen2
          omega
        rw [hasWordOcc_append_word w r hr hrall _ false, Bool.or_eq_false_iff]
        refine ⟨?_, ih rem true hremlen⟩
        rcases hdp : dropPref w (r ++ substWordGo w r f true rem) with _ | rem2
        · rw [wordBMatch_none_of_dropPref_none hdp]
          rfl
        · exfalso
          rcases pref_append_cases (pref_of_dropPref hdp) with h1 | ⟨w2, hw2, hp2⟩
          · have := prefLen h1
            omega
          · have hw2ne : w2 ≠ [] := by
              intro h3
              rw [h3, List.append_nil] at hw2
              rw [hw2] at hlen
              exact absurd hlen (lt_irrefl _)
            rcases hbound with rfl | ⟨d, t3, rfl, hd⟩
            · rw [substWordGo_nil] at hp2
              obtain ⟨s, hs⟩ := hp2
              exact hw2ne (List.append_eq_nil.mp hs).1
            · obtain ⟨t4, ht4⟩ := substWordGo_true_cons w r f d t3
              rw [ht4] at hp2
              cases w2 with
              | nil => exact hw2ne rfl
              | cons b w3 =>
                obtain ⟨hb, _⟩ := prefConsHead hp2
                subst hb
                have hbw : isWordChar b = true := hwall b
                  (by rw [hw2]; exact List.mem_append.mpr (Or.inr (List.mem_cons_self _ _)))
                rw [hbw] at hd
                exact absurd hd (by simp)

theorem substWordGo_preserves (w r v : List Char) (hv : v ≠ [])
    (hvall : ∀ c ∈ v, isWordChar c = true)
    (hw : w ≠ []) (hwall : ∀ c ∈ w, isWordChar c = true)
    (hr : r ≠ []) (hrall : ∀ c ∈ r, isWordChar c = true)
    (hvr : ¬ v <+: r) :
    ∀ (fuel : Nat) (cs : List Char) (prev : Bool), hasWordOcc v prev cs = false →
      hasWordOcc v prev (substWordGo w r fuel prev cs) = false := by
  intro fuel
  induction fuel with
  | zero => intro cs prev h; simpa [substWordGo] using h
  | succ f ih =>
    intro cs prev h
    cases cs with
    | nil => rw [substWordGo_nil, hasWordOcc_nil]
    | cons c rest =>
      rw [hasWordOcc_cons, Bool.or_eq_false_iff] at h
      rcases hm : wordBMatch w prev (c :: rest) with _ | rem
      · simp only [substWordGo, hm]
        rw [hasWordOcc_cons, Bool.or_eq_false_iff]
        refine ⟨?_, ih rest (isWordChar c) h.2⟩
        cases prev with
        | true => rw [wordBMatch_true]; rfl
        | false =>
          have hbm : wordBMatch v false (c :: rest) = none := by
            rcases hb2 : wordBMatch v false (c :: rest) with _ | rem3
            · rfl
            · rw [hb2] at h
              exact absurd h.1 (by simp)
          rw [wordBMatch_lift_none w r v hv hvall f c rest hbm]
          rfl
      · obtain ⟨hprev, hcs, hbound⟩ := wordBMatch_some hm
        subst hprev
        simp only [substWordGo, hm]
        have hvrem : hasWordOcc v true rem = false := by
          have h3 : hasWordOcc v false (c :: rest) = false := by
            rw [hasWordOcc_cons]
            exact Bool.or_eq_false_iff.mpr h
          rw [hcs, hasWordOcc_append_word v w hw hwall rem false,
            Bool.or_eq_false_iff] at h3
          exact h3.2
        rw [hasWordOcc_append_word v r hr hrall _ false, Bool.or_eq_false_iff]
        refine ⟨?_, ih rem true hvrem⟩
        rcases hdp : dropPref v (r ++ substWordGo w r f true rem) with _ | rem2
        · rw [wordBMatch_none_of_dropPref_none hdp]
          rfl
        · exfalso
          rcases pref_append_cases (pref_of_dropPref hdp) with h1 | ⟨v2, hv2, hp2⟩
          · exact hvr h1
          · have hv2ne : v2 ≠ [] := by
              intro h3
              rw [h3, List.append_nil] at hv2
              exact hvr (by rw [hv2])
            rcases hbound with rfl | ⟨d, t3, rfl, hd⟩
            · rw [substWordGo_nil] at hp2
              obtain ⟨s, hs⟩ := hp2
              exact hv2ne (List.append_eq_nil.mp hs).1
            · obtain ⟨t4, ht4⟩ := substWordGo_true_cons w r f d t3
              rw [ht4] at hp2
              cases v2 with
              | nil => exact hv2ne rfl
              | cons b v3 =>
                obtain ⟨hb, _⟩ := prefConsHead hp2
                subst hb
                have hbw : isWordChar b = true := hvall b
                  (by rw [hv2]; exact List.mem_append.mpr (Or.inr (List.mem_cons_self _ _)))
                rw [hbw] at hd
                exact absurd hd (by simp)

theorem wordBMatch_isSome_depunct {v : List Char} (hvall : ∀ c ∈ v, isWordChar c = true)
    (prev : Bool) (cs : List Char) :
    (wordBMatch v prev (depunct cs)).isSome = (wordBMatch v prev cs).isSome := by
  cases prev
  · rw [wordBMatch_false, wordBMatch_false, dropPref_depunct hvall]
    rcases hdp : dropPref v cs with _ | rem
    · rfl
    · rcases rem with _ | ⟨d, t⟩
      · rfl
      · by_cases hwd : isWordChar d
        · simp [depunct_cons, wc_dChar, hwd]
        · simp [depunct_cons, wc_dChar, hwd]
  · rw [wordBMatch_true, wordBMatch_true]

theorem hasWordOcc_depunct {v : List Char} (hvall : ∀ c ∈ v, isWordChar c = true) :
    ∀ (cs : List Char) (prev : Bool),
      hasWordOcc v prev (depunct cs) = hasWordOcc v prev cs := by
  intro cs
  induction cs with
  | nil => intro prev; rfl
  | cons c rest ih =>
    intro prev
    rw [depunct_cons, hasWordOcc_cons, hasWordOcc_cons, wc_dChar, ih (isWordChar c),
      ← depunct_cons, wordBMatch_isSome_depunct hvall]

theorem hasWordOcc_collapseGo (v : List Char) (hv : v ≠ [])
    (hvall : ∀ c ∈ v, isWordChar c = true) :
    ∀ (cs : List Char) (prev q : Bool), (q = true → prev = false) →
      hasWordOcc v prev cs = false → hasWordOcc v prev (collapseGo q cs) = false := by
  intro cs
  induction cs with
  | nil => intro prev q _ h; exact h
  | cons c rest ih =>
    intro prev q hq h
    rw [hasWordOcc_cons, Bool.or_eq_false_iff] at h
    by_cases hc : isPySpace c
    · have hwcf : isWordChar c = false := space_not_word hc
      rw [hwcf] at h
      by_cases hq2 : q
      · subst hq2
        have hp := hq rfl
        subst hp
        simp only [collapseGo, if_pos hc, if_pos rfl]
        exact ih false true (fun _ => rfl) h.2
      · have hq3 : q = false := by simpa using hq2
        subst hq3
        simp only [collapseGo, if_pos hc, iteFalseBool]
        rw [hasWordOcc_cons, Bool.or_eq_false_iff]
        constructor
        · cases prev with
          | true => rw [wordBMatch_true]; rfl
          | false =>
            have hdp : dropPref v (' ' :: collapseGo true rest) = none := by
              cases v with
              | nil => exact absurd rfl hv
              | cons b v' =>
                have hb : ¬ b = ' ' := by
                  intro h3
                  have h4 := hvall b (List.mem_cons_self _ _)
                  rw [h3] at h4
                  exact absurd h4 (by decide)
                simp [dropPref, hb]
            rw [wordBMatch_none_of_dropPref_none hdp]
            rfl
        · rw [show isWordChar ' ' = false from by decide]
          exact ih false true (fun _ => rfl) h.2
    · simp only [collapseGo, if_neg hc]
      rw [hasWordOcc_cons, Bool.or_eq_false_iff]
      refine ⟨?_, ih (isWordChar c) false (fun h3 => absurd h3 (by simp)) h.2⟩
      cases prev with
      | true => rw [wordBMatch_true]; rfl
      | false =>
        rcases hdp : dropPref v (c :: collapseGo false rest) with _ | rem2
        · rw [wordBMatch_none_of_dropPref_none hdp]
          rfl
        · cases v with
          | nil => exact absurd rfl hv
          | cons b v' =>
            have hbc : b = c ∧ dropPref v' (collapseGo false rest) = some rem2 := by
              by_cases h2 : b = c
              · subst h2
                simp only [dropPref, if_pos rfl] at hdp
                exact ⟨rfl, hdp⟩
              · simp only [dropPref, if_neg h2] at hdp
                exact absurd hdp (by simp)
            obtain ⟨rfl, hdp2⟩ := hbc
            have hv'w : ∀ c2 ∈ v', isWordChar c2 = true :=
              fun c2 hc2 => hvall c2 (List.mem_cons_of_mem _ hc2)
            have hv'ns : ∀ c2 ∈ v', isPySpace c2 = false :=
              fun c2 hc2 => word_not_space (hv'w c2 hc2)
            have hpref2 : v' <+: rest :=
              collapseGo_pref_reflect rest v' hv'ns (pref_of_dropPref hdp2)
            obtain ⟨s, hs⟩ := hpref2
            have hdpin : dropPref (b :: v') (b :: rest) = some s := by
              have h4 : (b :: v') ++ s = b :: rest := by rw [List.cons_append, hs]
              rw [← h4]
              exact dropPref_self_append _ _
            rcases s with _ | ⟨d2, t2⟩
            · have h5 : wordBMatch (b :: v') false (b :: rest) = some [] := by
                rw [wordBMatch_false, hdpin]
              have h6 := h.1
              rw [h5] at h6
              exact absurd h6 (by simp)
            · by_cases hd2 : isWordChar d2
              · have hd2ns : isPySpace d2 = false := word_not_space hd2
                have hstep : collapseGo false (d2 :: t2) = d2 :: collapseGo false t2 := by
                  simp only [collapseGo, if_neg (by simp [hd2ns] : ¬ isPySpace d2 = true)]
                have hout : collapseGo false rest = v' ++ (d2 :: collapseGo false t2) := by
                  rw [← hs, collapseGo_append_nonspace v' (d2 :: t2) hv'ns, hstep]
                rw [hout, dropPref_self_append] at hdp2
                injection hdp2 with h5
                rw [wordBMatch_false, hdp, ← h5]
                simp only [if_pos hd2, Option.isSome_none]
              · have h5 : wordBMatch (b :: v') false (b :: rest) = some (d2 :: t2) := by
                  rw [wordBMatch_false, hdpin]
                  simp only [if_neg hd2]
                have h6 := h.1
                rw [h5] at h6
                exact absurd h6 (by simp)

theorem hasWordOcc_dropWhileFront (v : List Char) :
    ∀ cs, hasWordOcc v false cs = false →
      hasWordOcc v false (cs.dropWhile isPySpace) = false := by
  intro cs
  induction cs with
  | nil => intro h; exact h
  | cons c rest ih =>
    intro h
    by_cases hc : isPySpace c
    · rw [List.dropWhile_cons, if_pos hc]
      rw [hasWordOcc_cons, Bool.or_eq_false_iff] at h
      have h2 := h.2
      rw [space_not_word hc] at h2
      exact ih h2
    · rw [List.dropWhile_cons, if_neg hc]
      exact h

theorem hasWordOcc_append_spaces (v : List Char) {ws : List Char}
    (hws : ∀ c ∈ ws, isPySpace c = true) :
    ∀ (core : List Char) (p : Bool), hasWordOcc v p core = true →
      hasWordOcc v p (core ++ ws) = true := by
  intro core
  induction core with
  | nil => intro p h; exact absurd h (by simp [hasWordOcc_nil])
  | cons c core' ih =>
    intro p h
    rw [hasWordOcc_cons] at h
    show hasWordOcc v p (c :: (core' ++ ws)) = true
    rw [hasWordOcc_cons]
    rcases Bool.or_eq_true_iff.mp h with h1 | h1
    · rcases hbm : wordBMatch v p (c :: core') with _ | rem
      · rw [hbm] at h1
        exact absurd h1 (by simp)
      · obtain ⟨hp, hcs, hbound⟩ := wordBMatch_some hbm
        subst hp
        have hdp2 : dropPref v (c :: (core' ++ ws)) = some (rem ++ ws) := by
          have h7 : c :: (core' ++ ws) = v ++ (rem ++ ws) := by
            rw [← List.append_assoc, ← hcs, List.cons_append]
          rw [h7]
          exact dropPref_self_append _ _
        have hout : (wordBMatch v false (c :: (core' ++ ws))).isSome = true := by
          rw [wordBMatch_false, hdp2]
          rcases hbound with rfl | ⟨d, t, rfl, hd⟩
          · rcases hws2 : ws with _ | ⟨e, ws'⟩
            · rfl
            · have he : isWordChar e = false :=
                space_not_word (hws e (by rw [hws2]; exact List.mem_cons_self _ _))
              simp [he]
          · simp [hd]
        rw [hout]
        simp
    · rw [ih (isWordChar c) h1]
      simp

theorem hasWordOcc_pyStrip (v : List Char) :
    ∀ cs, hasWordOcc v false cs = false → hasWordOcc v false (pyStrip cs) = false := by
  intro cs h
  have h1 := hasWordOcc_dropWhileFront v cs h
  obtain ⟨ws, hdec, hws⟩ := strip_decomp cs
  by_cases h2 : hasWordOcc v false (pyStrip cs) = true
  · have h3 := hasWordOcc_append_spaces v hws (pyStrip cs) false h2
    rw [← hdec, h1] at h3
    exact absurd h3 (by simp)
  · simpa using h2

theorem abbrevPairs_words :
    ∀ p ∈ abbrevPairs, p.1 ≠ [] ∧ (∀ c ∈ p.1, isWordChar c = true) ∧
      p.2 ≠ [] ∧ (∀ c ∈ p.2, isWordChar c = true) ∧ p.2.length < p.1.length := by
  decide

theorem abbrevPairs_no_pref :
    ∀ p ∈ abbrevPairs, ∀ p2 ∈ abbrevPairs, ¬ p.1 <+: p2.2 := by
  decide

theorem unitToks_not_inf_repl :
    ∀ t ∈ unitToks, ∀ p ∈ abbrevPairs, ¬ t <:+: p.2 := by
  decide

theorem abbrevPairs_upper :
    ∀ p ∈ abbrevPairs, ∀ c ∈ p.2, pyUpperChar c = c := by
  decide

theorem abbrevPairs_no_hash : ∀ p ∈ abbrevPairs, '#' ∉ p.2 := by
  decide

theorem foldl_substWord_subset :
    ∀ (prs : List (List Char × List Char)) (cs : List Char) (a : Char),
      a ∈ prs.foldl (fun s p => substWord p.1 p.2 s) cs →
      a ∈ cs ∨ ∃ p ∈ prs, a ∈ p.2 := by
  intro prs
  induction prs with
  | nil => intro cs a h; exact Or.inl (by simpa using h)
  | cons p prs ih =>
    intro cs a h
    rw [List.foldl_cons] at h
    rcases ih (substWord p.1 p.2 cs) a h with h1 | ⟨p2, hp2, hmem⟩
    · rw [substWord] at h1
      rcases substWordGo_subset p.1 p.2 cs.length false cs a h1 with h2 | h2
      · exact Or.inl h2
      · exact Or.inr ⟨p, List.mem_cons_self _ _, h2⟩
    · exact Or.inr ⟨p2, List.mem_cons_of_mem _ hp2, hmem⟩

theorem foldl_substWord_inf_reflect :
    ∀ (prs : List (List Char × List Char)) (t cs : List Char),
      (∀ c ∈ t, isWordChar c = true) →
      t <:+: prs.foldl (fun s p => substWord p.1 p.2 s) cs →
      t <:+: cs ∨ ∃ p ∈ prs, t <:+: p.2 := by
  intro prs
  induction prs with
  | nil => intro t cs _ h; exact Or.inl (by simpa using h)
  | cons p prs ih =>
    intro t cs ht h
    rw [List.foldl_cons] at h
    rcases ih t (substWord p.1 p.2 cs) ht h with h1 | ⟨p2, hp2, hinf⟩
    · rw [substWord] at h1
      rcases substWordGo_inf_reflect p.1 p.2 cs.length t cs false ht h1 with h2 | h2
      · exact Or.inl h2
      · exact Or.inr ⟨p, List.mem_cons_self _ _, h2⟩
    · exact Or.inr ⟨p2, List.mem_cons_of_mem _ hp2, hinf⟩

theorem foldl_substWord_preserves (v : List Char) (hv : v ≠ [])
    (hvall : ∀ c ∈ v, isWordChar c = true) :
    ∀ (prs : List (List Char × List Char)) (cs : List Char),
      (∀ p ∈ prs, p.1 ≠ [] ∧ (∀ c ∈ p.1, isWordChar c = true) ∧
        p.2 ≠ [] ∧ (∀ c ∈ p.2, isWordChar c = true) ∧ ¬ v <+: p.2) →
      hasWordOcc v false cs = false →
      hasWordOcc v false (prs.foldl (fun s p => substWord p.1 p.2 s) cs) = false := by
  intro prs
  induction prs with
  | nil => intro cs _ h; simpa using h
  | cons p prs ih =>
    intro cs hp h
    rw [List.foldl_cons]
    obtain ⟨h1, h2, h3, h4, h5⟩ := hp p (List.mem_cons_self _ _)
    exact ih (substWord p.1 p.2 cs) (fun p2 hp2 => hp p2 (List.mem_cons_of_mem _ hp2))
      (substWordGo_preserves p.1 p.2 v hv hvall h1 h2 h3 h4 h5 cs.length cs false h)

theorem foldl_substWord_kills :
    ∀ (prs : List (List Char × List Char)) (cs : List Char),
      (∀ p ∈ prs, p.1 ≠ [] ∧ (∀ c ∈ p.1, isWordChar c = true) ∧
        p.2 ≠ [] ∧ (∀ c ∈ p.2, isWordChar c = true) ∧ p.2.length < p.1.length) →
      (∀ p ∈ prs, ∀ p2 ∈ prs, ¬ p.1 <+: p2.2) →
      ∀ p0 ∈ prs,
        hasWordOcc p0.1 false (prs.foldl (fun s p => substWord p.1 p.2 s) cs) = false := by
  intro prs
  induction prs with
  | nil => intro cs _ _ p0 h0; exact absurd h0 (by simp)
  | cons p prs ih =>
    intro cs hfacts hcross p0 h0
    rw [List.foldl_cons]
    obtain ⟨h1, h2, h3, h4, h5⟩ := hfacts p (List.mem_cons_self _ _)
    rcases List.mem_cons.mp h0 with rfl | h0tail
    · have hkill : hasWordOcc p0.1 false (substWord p0.1 p0.2 cs) = false := by
        rw [substWord]
        exact substWordGo_kills p0.1 p0.2 h1 h2 h3 h4 h5 cs.length cs false (le_refl _)
      exact foldl_substWord_preserves p0.1 h1 h2 prs (substWord p0.1 p0.2 cs)
        (fun p2 hp2 => by
          obtain ⟨g1, g2, g3, g4, _⟩ := hfacts p2 (List.mem_cons_of_mem _ hp2)
          exact ⟨g1, g2, g3, g4,
            hcross p0 (List.mem_cons_self _ _) p2 (List.mem_cons_of_mem _ hp2)⟩)
        hkill
    · exact ih (substWord p.1 p.2 cs)
        (fun p2 hp2 => hfacts p2 (List.mem_cons_of_mem _ hp2))
        (fun p2 hp2 p3 hp3 =>
          hcross p2 (List.mem_cons_of_mem _ hp2) p3 (List.mem_cons_of_mem _ hp3))
        p0 h0tail

theorem foldl_substWord_noop :
    ∀ (prs : List (List Char × List Char)) (cs : List Char),
      (∀ p ∈ prs, hasWordOcc p.1 false cs = false) →
      prs.foldl (fun s p => substWord p.1 p.2 s) cs = cs := by
  intro prs
  induction prs with
  | nil => intro cs _; rfl
  | cons p prs ih =>
    intro cs h
    rw [List.foldl_cons]
    have h0 : substWord p.1 p.2 cs = cs := by
      rw [substWord]
      exact substWordGo_noop p.1 p.2 cs.length false cs (h p (List.mem_cons_self _ _))
    rw [h0]
    exact ih cs (fun p2 hp2 => h p2 (List.mem_cons_of_mem _ hp2))

theorem char_le_toNat (a b : Char) : a ≤ b ↔ a.toNat ≤ b.toNat := Iff.rfl

theorem pyUpperChar_idem (c : Char) : pyUpperChar (pyUpperChar c) = pyUpperChar c := by
  unfold pyUpperChar
  by_cases h : ('a' ≤ c && c ≤ 'z') = true
  · rw [if_pos h]
    simp only [Bool.and_eq_true, decide_eq_true_eq, char_le_toNat] at h
    have h97 : ('a' : Char).toNat = 97 := rfl
    have h122 : ('z' : Char).toNat = 122 := rfl
    rw [h97, h122] at h
    have hval : (Char.ofNat (c.toNat - 32)).toNat = c.toNat - 32 := by
      unfold Char.ofNat
      rw [dif_pos (Or.inl (by omega))]
      rfl
    rw [if_neg ?_]
    simp only [Bool.and_eq_true, decide_eq_true_eq, char_le_toNat, not_and, h97, h122, hval]
    intro h2
    omega
  · rw [if_neg h, if_neg h]

theorem map_pyUpperChar_noop {cs : List Char} (h : ∀ a ∈ cs, pyUpperChar a = a) :
    cs.map pyUpperChar = cs := by
  induction cs with
  | nil => rfl
  | cons c rest ih =>
    rw [List.map_cons, h c (List.mem_cons_self _ _),
      ih (fun a ha => h a (List.mem_cons_of_mem _ ha))]

theorem normalizeChars_eq (cs : List Char) :
    normalizeChars cs =
      pyStrip (collapseWs (depunct (applyAbbrevs (subUnit (pyStrip (cs.map pyUpperChar)))))) :=
  rfl

theorem normalizeChars_upper (cs : List Char) :
    ∀ a ∈ normalizeChars cs, pyUpperChar a = a := by
  intro a ha
  rw [normalizeChars_eq] at ha
  have ha2 := pyStrip_subset ha
  rw [collapseWs] at ha2
  rcases collapseGo_subset _ false a ha2 with ha3 | rfl
  · rcases depunct_subset ha3 with rfl | ha4
    · decide
    · rw [applyAbbrevs] at ha4
      rcases foldl_substWord_subset abbrevPairs _ a ha4 with ha5 | ⟨p, hp, hmem⟩
      · rw [subUnit] at ha5
        have ha6 := subUnitGo_subset _ _ a ha5
        have ha7 := pyStrip_subset ha6
        rw [List.mem_map] at ha7
        obtain ⟨c, _, rfl⟩ := ha7
        exact pyUpperChar_idem c
      · exact abbrevPairs_upper p hp a hmem
  · decide

theorem normalizeChars_noHash (cs : List Char) : '#' ∉ normalizeChars cs := by
  intro h
  rw [normalizeChars_eq] at h
  have h2 := pyStrip_subset h
  rw [collapseWs] at h2
  rcases collapseGo_subset _ false '#' h2 with h3 | h3
  · exact depunct_no_hash _ h3
  · exact absurd h3 (by decide)

theorem normalizeChars_noTok (cs : List Char) :
    ∀ t ∈ unitToks, ¬ t <:+: normalizeChars cs := by
  intro t ht hinf
  by_cases hhash : t = [ '#' ]
  · subst hhash
    exact normalizeChars_noHash cs (singletonInfMem hinf)
  · have htw : t ≠ [] ∧ ∀ c ∈ t, isWordChar c = true := by
      simp only [unitToks, List.mem_cons, List.not_mem_nil, or_false] at ht
      rcases ht with rfl | rfl | rfl | rfl | rfl
      · exact ⟨by simp, by decide⟩
      · exact ⟨by simp, by decide⟩
      · exact ⟨by simp, by decide⟩
      · exact ⟨by simp, by decide⟩
      · exact absurd rfl hhash
    have hns : ∀ c ∈ t, isPySpace c = false := fun c hc => word_not_space (htw.2 c hc)
    rw [normalizeChars_eq] at hinf
    have h1 := infTrans hinf (pyStrip_inf _)
    rw [collapseWs] at h1
    have h2 := collapseGo_inf_reflect htw.1 hns _ false h1
    have h3 := depunct_inf_reflect htw.2 _ h2
    rw [applyAbbrevs] at h3
    rcases foldl_substWord_inf_reflect abbrevPairs t _ htw.2 h3 with h4 | ⟨p, hp, h5⟩
    · rw [subUnit] at h4
      exact subUnitGo_noTok ht _ _ (le_refl _) h4
    · exact unitToks_not_inf_repl t ht p hp h5

theorem normalizeChars_noAbbrevOcc (cs : List Char) :
    ∀ p ∈ abbrevPairs, hasWordOcc p.1 false (normalizeChars cs) = false := by
  intro p hp
  obtain ⟨h1, h2, _, _, _⟩ := abbrevPairs_words p hp
  rw [normalizeChars_eq]
  apply hasWordOcc_pyStrip
  rw [collapseWs]
  apply hasWordOcc_collapseGo p.1 h1 h2 _ false false (fun h => absurd h (by simp))
  rw [hasWordOcc_depunct h2, applyAbbrevs]
  exact foldl_substWord_kills abbrevPairs _ abbrevPairs_words abbrevPairs_no_pref p hp

theorem normalizeChars_noPunct (cs : List Char) :
    ∀ a ∈ normalizeChars cs, isPunctTok a = false := by
  intro a ha
  rw [normalizeChars_eq] at ha
  have h2 := pyStrip_subset ha
  rw [collapseWs] at h2
  rcases collapseGo_subset _ false a h2 with h3 | rfl
  · exact depunct_no_punct _ a h3
  · decide

theorem normalizeChars_goodSpaces (cs : List Char) :
    goodSpaces false (normalizeChars cs) = true := by
  rw [normalizeChars_eq]
  exact goodSpaces_pyStrip (collapseGo_goodSpaces _ false)

theorem normalizeChars_stripped (cs : List Char) :
    pyStrip (normalizeChars cs) = normalizeChars cs := by
  rw [normalizeChars_eq]
  exact pyStrip_idem _

theorem normalizeChars_idem (cs : List Char) :
    normalizeChars (normalizeChars cs) = normalizeChars cs := by
  have hupper : (normalizeChars cs).map pyUpperChar = normalizeChars cs :=
    map_pyUpperChar_noop (normalizeChars_upper cs)
  have hstrip := normalizeChars_stripped cs
  have hsub : subUnit (normalizeChars cs) = normalizeChars cs := by
    rw [subUnit]
    exact subUnitGo_noop (normalizeChars_noTok cs) _
  have habbrev : applyAbbrevs (normalizeChars cs) = normalizeChars cs := by
    rw [applyAbbrevs]
    exact foldl_substWord_noop abbrevPairs _ (normalizeChars_noAbbrevOcc cs)
  have hdep : depunct (normalizeChars cs) = normalizeChars cs :=
    depunct_noop (normalizeChars_noPunct cs)
  have hcoll : collapseWs (normalizeChars cs) = normalizeChars cs := by
    rw [collapseWs]
    exact collapseGo_noop _ false (normalizeChars_goodSpaces cs)
  calc normalizeChars (normalizeChars cs)
      = pyStrip (collapseWs (depunct (applyAbbrevs (subUnit
          (pyStrip ((normalizeChars cs).map pyUpperChar)))))) := normalizeChars_eq _
    _ = normalizeChars cs := by rw [hupper, hstrip, hsub, habbrev, hdep, hcoll, hstrip]

theorem stringMk_toList (l : List Char) : (String.mk l).toList = l := rfl

/-- C3: the Address Normalizer is idempotent — for every string `x`,
`normalize_address (normalize_address x) = normalize_address x` — and the
example addresses normalize as specified: both "123 Main Street, Unit 4" and
"123 MAIN ST" normalize to "123 MAIN ST", and "123 North Main Street Apt 4"
normalizes to "123 N MAIN ST". -/
theorem c3_normalizer_idempotent :
    (∀ x : String, normalize_address (normalize_address x) = normalize_address x) ∧
    normalize_address "123 Main Street, Unit 4" = "123 MAIN ST" ∧
    normalize_address "123 MAIN ST" = "123 MAIN ST" ∧
    normalize_address "123 North Main Street Apt 4" = "123 N MAIN ST" := by
  refine ⟨?_, by decide, by decide, by decide⟩
  intro x
  by_cases hx : x = ""
  · subst hx
    decide
  · have hinner : normalize_address x = String.mk (normalizeChars x.toList) := by
      rw [normalize_address, if_neg hx]
    by_cases hy : normalizeChars x.toList = []
    · rw [hinner, hy]
      decide
    · have hne : String.mk (normalizeChars x.toList) ≠ "" := by
        intro heq
        apply hy
        have h2 := congrArg String.data heq
        simpa using h2
      rw [hinner, normalize_address, if_neg hne]
      rw [stringMk_toList, normalizeChars_idem]
